import Mathlib

/-!
Verification development for the folder-structure-navigator core.

The repository walks a directory tree, filters entries (hidden files,
folder exclusion, extension whitelist, glob patterns, gitignore), sorts
them and renders them either eagerly (StructureGenerator, src/core/generator.ts)
or as a stream of events (StreamingGenerator, src/core/streaming-generator.ts).

This file shallowly embeds the relevant source functions:
  - the glob compiler/matcher matchesPattern (src/utils/fs-helpers.ts),
  - gitignore resolution getGitignoreRules (src/utils/fs-helpers.ts),
  - config resolution (the constructor default-filling of both generators),
  - the eager tree builder buildTree and its sortEntries,
  - the streaming walker streamDir and its event vocabulary,
  - the TTL cache AdvancedCache (src/utils/cache.ts).

Machine integers are modelled as Nat/Int, JavaScript strings as Lean
String, paths as segment lists rendered with a slash separator, failures
as Option/Except values.  JavaScript Array.prototype.sort (stable since
ES2019) is modelled by a stable insertion sort; localeCompare with the
numeric option is modelled by a concrete numeric-run-aware comparison
(both generators use one and the same comparison, so every theorem that
compares the two modes is insensitive to the exact collation).
-/

/-- Kind of a filesystem entry, mirroring the FileEntry.type union
in src/models/file-entry.interface.ts. -/
inductive EntryKind where
  | file
  | directory
  | symlink
deriving DecidableEq

/-- Total comparison on Nat, the model of a JavaScript numeric comparison. -/
def natCmp (a b : Nat) : Ordering :=
  if a < b then .lt else if b < a then .gt else .eq

/-- Total comparison on Int, used for the size/modified comparators. -/
def intCmp (a b : Int) : Ordering :=
  if a < b then .lt else if b < a then .gt else .eq

/-- Comparison of characters by code point. -/
def charCmp (a b : Char) : Ordering :=
  natCmp a.toNat b.toNat

/-- Token of a name under numeric-aware collation: a maximal digit run is
compared as a number, any other character by code point. -/
inductive NameTok where
  | num (n : Nat)
  | ch (c : Char)
deriving DecidableEq

/-- Tokenizer worker: the accumulator holds the numeric value of the digit
run read so far, if one is open. -/
def tokenizeGo : Option Nat → List Char → List NameTok
  | none, [] => []
  | some n, [] => [NameTok.num n]
  | none, c :: cs =>
    if c.isDigit then tokenizeGo (some (c.toNat - 48)) cs
    else NameTok.ch c :: tokenizeGo none cs
  | some n, c :: cs =>
    if c.isDigit then tokenizeGo (some (n * 10 + (c.toNat - 48))) cs
    else NameTok.num n :: NameTok.ch c :: tokenizeGo none cs

/-- Tokenize a name into digit runs and single characters. -/
def tokenizeName (cs : List Char) : List NameTok :=
  tokenizeGo none cs

/-- Comparison of collation tokens: numeric runs sort before other
characters and among themselves numerically. -/
def tokCmp : NameTok → NameTok → Ordering
  | .num a, .num b => natCmp a b
  | .num _, .ch _ => .lt
  | .ch _, .num _ => .gt
  | .ch a, .ch b => charCmp a b

/-- Lexicographic comparison of token lists. -/
def lexTokCmp : List NameTok → List NameTok → Ordering
  | [], [] => .eq
  | [], _ :: _ => .lt
  | _ :: _, [] => .gt
  | a :: as, b :: bs =>
    match tokCmp a b with
    | .eq => lexTokCmp as bs
    | o => o

/-- Model of localeCompare with the numeric option: numeric-run-aware
string comparison.  Both generators call localeCompare with identical
arguments, so they share this one model. -/
def nameCmp (a b : String) : Ordering :=
  lexTokCmp (tokenizeName a.toList) (tokenizeName b.toList)

/-- Stable insertion step: x is placed before the first element that does
not compare strictly greater, which preserves the original relative order
of elements that compare equal (JavaScript stable-sort semantics). -/
def insertCmp (cmp : α → α → Ordering) (x : α) : List α → List α
  | [] => [x]
  | y :: ys => if cmp x y = .gt then y :: insertCmp cmp x ys else x :: y :: ys

/-- Stable sort by a three-way comparator; the model of
Array.prototype.sort, which ECMAScript requires to be stable. -/
def stableSortBy (cmp : α → α → Ordering) : List α → List α
  | [] => []
  | x :: xs => insertCmp cmp x (stableSortBy cmp xs)

theorem mem_insertCmp (cmp : α → α → Ordering) (x a : α) (l : List α) :
    a ∈ insertCmp cmp x l ↔ a = x ∨ a ∈ l := by
  induction l with
  | nil => simp [insertCmp]
  | cons y ys ih =>
    rw [insertCmp]
    by_cases h : cmp x y = .gt
    · rw [if_pos h]
      simp only [List.mem_cons, ih]
      tauto
    · rw [if_neg h]
      simp only [List.mem_cons]

theorem mem_stableSortBy (cmp : α → α → Ordering) (a : α) (l : List α) :
    a ∈ stableSortBy cmp l ↔ a ∈ l := by
  induction l with
  | nil => simp [stableSortBy]
  | cons x xs ih => simp [stableSortBy, mem_insertCmp, ih]

theorem length_insertCmp (cmp : α → α → Ordering) (x : α) (l : List α) :
    (insertCmp cmp x l).length = l.length + 1 := by
  induction l with
  | nil => rfl
  | cons y ys ih =>
    by_cases h : cmp x y = .gt <;> simp [insertCmp, h, ih]

theorem length_stableSortBy (cmp : α → α → Ordering) (l : List α) :
    (stableSortBy cmp l).length = l.length := by
  induction l with
  | nil => rfl
  | cons x xs ih => simp [stableSortBy, length_insertCmp, ih]

theorem stableSortBy_congr (cmp cmp' : α → α → Ordering)
    (h : ∀ a b, cmp a b = cmp' a b) (l : List α) :
    stableSortBy cmp l = stableSortBy cmp' l := by
  induction l with
  | nil => rfl
  | cons x xs ih =>
    simp only [stableSortBy, ih]
    generalize stableSortBy cmp' xs = l
    induction l with
    | nil => rfl
    | cons y ys ih2 => simp only [insertCmp, h, ih2]

/-- A list already in non-descending comparator order is left unchanged by
the stable sort. -/
theorem stableSortBy_of_chain (cmp : α → α → Ordering) (l : List α)
    (h : l.Chain' (fun a b => cmp a b ≠ .gt)) : stableSortBy cmp l = l := by
  induction l with
  | nil => rfl
  | cons x xs ih =>
    have hxs : xs.Chain' (fun a b => cmp a b ≠ .gt) := h.tail
    rw [stableSortBy, ih hxs]
    cases xs with
    | nil => rfl
    | cons y ys =>
      have hxy : cmp x y ≠ .gt := List.chain'_cons.mp h |>.1
      simp [insertCmp, hxy]

theorem chain_insertCmp (cmp : α → α → Ordering)
    (hw : ∀ a b, cmp a b = .gt → cmp b a ≠ .gt) (x : α) (l : List α)
    (h : l.Chain' (fun a b => cmp a b ≠ .gt)) :
    (insertCmp cmp x l).Chain' (fun a b => cmp a b ≠ .gt) := by
  induction l with
  | nil => simp [insertCmp]
  | cons y ys ih =>
    rw [insertCmp]
    by_cases hxy : cmp x y = .gt
    · rw [if_pos hxy]
      have hins := ih h.tail
      cases ys with
      | nil =>
        simp only [insertCmp] at hins ⊢
        exact List.chain'_cons.mpr ⟨hw _ _ hxy, hins⟩
      | cons w ws =>
        rw [insertCmp] at hins ⊢
        by_cases hxw : cmp x w = .gt
        · rw [if_pos hxw] at hins ⊢
          exact List.chain'_cons.mpr ⟨(List.chain'_cons.mp h).1, hins⟩
        · rw [if_neg hxw] at hins ⊢
          exact List.chain'_cons.mpr ⟨hw _ _ hxy, hins⟩
    · rw [if_neg hxy]
      exact List.chain'_cons.mpr ⟨hxy, h⟩

/-- The stable sort produces a list in non-descending comparator order,
provided the comparator never declares both directions strictly greater. -/
theorem chain_stableSortBy (cmp : α → α → Ordering)
    (hw : ∀ a b, cmp a b = .gt → cmp b a ≠ .gt) (l : List α) :
    (stableSortBy cmp l).Chain' (fun a b => cmp a b ≠ .gt) := by
  induction l with
  | nil => simp [stableSortBy]
  | cons x xs ih => exact chain_insertCmp cmp hw x _ ih

/- ==================================================================
   Pattern matcher (matchesPattern, src/utils/fs-helpers.ts lines 68-90)

   The source escapes every regex metacharacter except the wildcards,
   replaces every left-to-right pair of stars by a NUL placeholder,
   every remaining star by a non-separator run ([^/\\]*), every NUL by
   the dot-star atom (.*), and every question mark by one non-separator
   character ([^/\\]), then anchors the regex.  The RegExp is built
   without any flags, so the dot of the dot-star atom follows the
   ECMAScript default: it matches every character except the four line
   terminators (LF, CR, U+2028, U+2029), while the negated character
   classes of star and question mark do match line terminators.  The
   resulting regex is a plain concatenation of atoms, embedded here as
   a token list; because the escaping step makes the regex
   syntactically valid for every input, the catch clause (substring
   fallback) of the source is unreachable and has no counterpart
   here.
   ================================================================== -/

/-- Path separator as treated by the generated character classes. -/
def isSepChar (c : Char) : Bool := c = '/' || c = '\\'

/-- The NUL character used by the source as the double-star placeholder. -/
def nulChar : Char := '\x00'

/-- The ECMAScript line terminators, which the dot atom of a RegExp
without the dotAll flag does not match. -/
def isLineTerm (c : Char) : Bool :=
  c = '\n' || c = '\r' || c = '\u2028' || c = '\u2029'

/-- One atom of the compiled pattern. -/
inductive GTok where
  | lit (c : Char)
  | one
  | star
  | dstar
deriving DecidableEq

/-- Compilation of one non-star character.  When nulStar is true a NUL
character becomes an any-run atom, reproducing the placeholder collision
of the source; with nulStar false it stays a literal, which is the
documented behaviour. -/
def singleTok (nulStar : Bool) (c : Char) : GTok :=
  if c = '*' then GTok.star
  else if c = '?' then GTok.one
  else if nulStar && c = nulChar then GTok.dstar
  else GTok.lit c

/-- Tokenization of a whole pattern with left-to-right pairing of stars,
mirroring the global double-star replacement of the source. -/
def globTok (nulStar : Bool) : List Char → List GTok
  | [] => []
  | [c] => [singleTok nulStar c]
  | c1 :: c2 :: rest =>
    if c1 = '*' && c2 = '*' then GTok.dstar :: globTok nulStar rest
    else singleTok nulStar c1 :: globTok nulStar (c2 :: rest)

/-- The token list actually produced by the source pipeline. -/
def compileGlob (cs : List Char) : List GTok := globTok true cs

/-- The token list the specification text describes (no placeholder
collision: every non-wildcard character matches literally). -/
def specTokens (cs : List Char) : List GTok := globTok false cs

theorem globTok_nul_free :
    ∀ cs : List Char, (∀ c ∈ cs, c ≠ nulChar) → globTok true cs = globTok false cs
  | [], _ => rfl
  | [c], h => by
    have hc : c ≠ nulChar := h c (by simp)
    simp only [globTok, singleTok]
    simp [hc]
  | c1 :: c2 :: rest, h => by
    have h1 : c1 ≠ nulChar := h c1 (by simp)
    have hrec1 : globTok true rest = globTok false rest :=
      globTok_nul_free rest (fun c hc => h c (by simp [hc]))
    have hrec2 : globTok true (c2 :: rest) = globTok false (c2 :: rest) :=
      globTok_nul_free (c2 :: rest) (fun c hc => h c (by simp [List.mem_cons] at hc ⊢; tauto))
    by_cases hss : c1 = '*' && c2 = '*'
    · simp only [globTok, hss, if_pos, hrec1]
    · simp only [globTok, hss, if_neg, Bool.false_eq_true, ite_false, hrec2, singleTok]
      simp [h1]

/-- Fuel-indexed matcher for a compiled token list against a character
list: the executable denotation of the anchored regex the source builds.
The fuel only realizes the recursion; any fuel exceeding the combined
length is equivalent. -/
def globMatchF : Nat → List GTok → List Char → Bool
  | 0, _, _ => false
  | _ + 1, [], [] => true
  | _ + 1, [], _ :: _ => false
  | _ + 1, GTok.lit _ :: _, [] => false
  | f + 1, GTok.lit c :: ts, x :: xs => c = x && globMatchF f ts xs
  | _ + 1, GTok.one :: _, [] => false
  | f + 1, GTok.one :: ts, x :: xs => !isSepChar x && globMatchF f ts xs
  | f + 1, GTok.star :: ts, [] => globMatchF f ts []
  | f + 1, GTok.star :: ts, x :: xs =>
    globMatchF f ts (x :: xs) || (!isSepChar x && globMatchF f (GTok.star :: ts) xs)
  | f + 1, GTok.dstar :: ts, [] => globMatchF f ts []
  | f + 1, GTok.dstar :: ts, x :: xs =>
    globMatchF f ts (x :: xs) ||
      (!isLineTerm x && globMatchF f (GTok.dstar :: ts) xs)

/-- Matcher entry point with sufficient fuel. -/
def globMatch (ts : List GTok) (s : List Char) : Bool :=
  globMatchF (ts.length + s.length + 1) ts s

/-- Declarative matching relation of the compiled atom list: a star
consumes a separator-free run, a double star a line-terminator-free run
(the compiled dot atom has no dotAll flag, so separators are allowed but
LF, CR, U+2028 and U+2029 are not), a question mark one non-separator
character, and any literal exactly itself. -/
inductive GlobSpec : List GTok → List Char → Prop where
  | nil : GlobSpec [] []
  | lit (c : Char) (ts : List GTok) (s : List Char) :
      GlobSpec ts s → GlobSpec (GTok.lit c :: ts) (c :: s)
  | one (x : Char) (ts : List GTok) (s : List Char) :
      isSepChar x = false → GlobSpec ts s → GlobSpec (GTok.one :: ts) (x :: s)
  | star (run : List Char) (ts : List GTok) (s : List Char) :
      (∀ c ∈ run, isSepChar c = false) → GlobSpec ts s →
      GlobSpec (GTok.star :: ts) (run ++ s)
  | dstar (run : List Char) (ts : List GTok) (s : List Char) :
      (∀ c ∈ run, isLineTerm c = false) → GlobSpec ts s →
      GlobSpec (GTok.dstar :: ts) (run ++ s)

theorem globSpec_nil_inv {u : List Char} (h : GlobSpec [] u) : u = [] := by
  cases h; rfl

theorem globSpec_lit_inv {c : Char} {ts : List GTok} {u : List Char}
    (h : GlobSpec (GTok.lit c :: ts) u) :
    ∃ s, u = c :: s ∧ GlobSpec ts s := by
  cases h with
  | lit _ _ s htl => exact ⟨s, rfl, htl⟩

theorem globSpec_one_inv {ts : List GTok} {u : List Char}
    (h : GlobSpec (GTok.one :: ts) u) :
    ∃ x s, u = x :: s ∧ isSepChar x = false ∧ GlobSpec ts s := by
  cases h with
  | one x _ s hsep htl => exact ⟨x, s, rfl, hsep, htl⟩

theorem globSpec_star_inv {ts : List GTok} {u : List Char}
    (h : GlobSpec (GTok.star :: ts) u) :
    ∃ run s, u = run ++ s ∧ (∀ c ∈ run, isSepChar c = false) ∧ GlobSpec ts s := by
  cases h with
  | star run _ s hrun htl => exact ⟨run, s, rfl, hrun, htl⟩

theorem globSpec_dstar_inv {ts : List GTok} {u : List Char}
    (h : GlobSpec (GTok.dstar :: ts) u) :
    ∃ run s, u = run ++ s ∧ (∀ c ∈ run, isLineTerm c = false) ∧ GlobSpec ts s := by
  cases h with
  | dstar run _ s hrun htl => exact ⟨run, s, rfl, hrun, htl⟩

theorem globMatchF_iff :
    ∀ (f : Nat) (ts : List GTok) (s : List Char), ts.length + s.length < f →
      (globMatchF f ts s = true ↔ GlobSpec ts s)
  | 0, _, _, h => absurd h (Nat.not_lt_zero _)
  | _ + 1, [], [], _ => by
    simp only [globMatchF]
    exact ⟨fun _ => GlobSpec.nil, fun _ => trivial⟩
  | _ + 1, [], x :: xs, _ => by
    simp only [globMatchF]
    exact ⟨fun h => by simp at h, fun h => absurd (globSpec_nil_inv h) (by simp)⟩
  | _ + 1, GTok.lit c :: ts, [], _ => by
    simp only [globMatchF]
    constructor
    · intro h; simp at h
    · intro h
      obtain ⟨s, hs, -⟩ := globSpec_lit_inv h
      simp at hs
  | f + 1, GTok.lit c :: ts, x :: xs, h => by
    have ih := globMatchF_iff f ts xs (by simp only [List.length_cons] at h; omega)
    simp only [globMatchF, Bool.and_eq_true, decide_eq_true_eq]
    constructor
    · rintro ⟨rfl, hm⟩
      exact GlobSpec.lit c ts xs (ih.mp hm)
    · intro hs
      obtain ⟨s, hxe, htl⟩ := globSpec_lit_inv hs
      obtain ⟨h1, h2⟩ := List.cons.inj hxe
      subst h1
      subst h2
      exact ⟨rfl, ih.mpr htl⟩
  | _ + 1, GTok.one :: ts, [], _ => by
    simp only [globMatchF]
    constructor
    · intro h; simp at h
    · intro h
      obtain ⟨x, s, hs, -, -⟩ := globSpec_one_inv h
      simp at hs
  | f + 1, GTok.one :: ts, x :: xs, h => by
    have ih := globMatchF_iff f ts xs (by simp only [List.length_cons] at h; omega)
    simp only [globMatchF, Bool.and_eq_true, Bool.not_eq_true']
    constructor
    · rintro ⟨hsep, hm⟩
      exact GlobSpec.one x ts xs hsep (ih.mp hm)
    · intro hs
      obtain ⟨y, s, hxe, hsep, htl⟩ := globSpec_one_inv hs
      obtain ⟨rfl, rfl⟩ := List.cons.inj hxe
      exact ⟨hsep, ih.mpr htl⟩
  | f + 1, GTok.star :: ts, [], h => by
    have ih := globMatchF_iff f ts [] (by simp only [List.length_cons] at h ⊢; omega)
    simp only [globMatchF]
    constructor
    · intro hm
      exact (List.nil_append ([] : List Char)) ▸
        GlobSpec.star [] ts [] (by simp) (ih.mp hm)
    · intro hs
      obtain ⟨run, s, he, -, htl⟩ := globSpec_star_inv hs
      obtain ⟨rfl, rfl⟩ := List.append_eq_nil.mp he.symm
      exact ih.mpr htl
  | f + 1, GTok.star :: ts, x :: xs, h => by
    have ih1 := globMatchF_iff f ts (x :: xs)
      (by simp only [List.length_cons] at h ⊢; omega)
    have ih2 := globMatchF_iff f (GTok.star :: ts) xs
      (by simp only [List.length_cons] at h ⊢; omega)
    simp only [globMatchF, Bool.or_eq_true, Bool.and_eq_true, Bool.not_eq_true']
    constructor
    · rintro (hm | ⟨hsep, hm⟩)
      · exact (List.nil_append (x :: xs)) ▸
          GlobSpec.star [] ts (x :: xs) (by simp) (ih1.mp hm)
      · obtain ⟨run, s, he, hrun, htl⟩ := globSpec_star_inv (ih2.mp hm)
        subst he
        exact (by simp : (x :: run) ++ s = x :: (run ++ s)) ▸
          GlobSpec.star (x :: run) ts s
            (by
              intro c hc
              rcases List.mem_cons.mp hc with rfl | hc2
              · exact hsep
              · exact hrun c hc2) htl
    · intro hs
      obtain ⟨run, s, he, hrun, htl⟩ := globSpec_star_inv hs
      cases run with
      | nil =>
        simp only [List.nil_append] at he
        exact Or.inl (ih1.mpr (he.symm ▸ htl))
      | cons r rs =>
        simp only [List.cons_append] at he
        obtain ⟨rfl, hxs⟩ := List.cons.inj he
        refine Or.inr ⟨hrun x (by simp), ?_⟩
        exact ih2.mpr (hxs ▸ GlobSpec.star rs ts s (fun c hc => hrun c (by simp [hc])) htl)
  | f + 1, GTok.dstar :: ts, [], h => by
    have ih := globMatchF_iff f ts [] (by simp only [List.length_cons] at h ⊢; omega)
    simp only [globMatchF]
    constructor
    · intro hm
      exact (List.nil_append ([] : List Char)) ▸
        GlobSpec.dstar [] ts [] (by simp) (ih.mp hm)
    · intro hs
      obtain ⟨run, s, he, -, htl⟩ := globSpec_dstar_inv hs
      obtain ⟨rfl, rfl⟩ := List.append_eq_nil.mp he.symm
      exact ih.mpr htl
  | f + 1, GTok.dstar :: ts, x :: xs, h => by
    have ih1 := globMatchF_iff f ts (x :: xs)
      (by simp only [List.length_cons] at h ⊢; omega)
    have ih2 := globMatchF_iff f (GTok.dstar :: ts) xs
      (by simp only [List.length_cons] at h ⊢; omega)
    simp only [globMatchF, Bool.or_eq_true, Bool.and_eq_true, Bool.not_eq_true']
    constructor
    · rintro (hm | ⟨hlt, hm⟩)
      · exact (List.nil_append (x :: xs)) ▸
          GlobSpec.dstar [] ts (x :: xs) (by simp) (ih1.mp hm)
      · obtain ⟨run, s, he, hrun, htl⟩ := globSpec_dstar_inv (ih2.mp hm)
        subst he
        exact (by simp : (x :: run) ++ s = x :: (run ++ s)) ▸
          GlobSpec.dstar (x :: run) ts s
            (by
              intro c hc
              rcases List.mem_cons.mp hc with rfl | hc2
              · exact hlt
              · exact hrun c hc2) htl
    · intro hs
      obtain ⟨run, s, he, hrun, htl⟩ := globSpec_dstar_inv hs
      cases run with
      | nil =>
        simp only [List.nil_append] at he
        exact Or.inl (ih1.mpr (he.symm ▸ htl))
      | cons r rs =>
        simp only [List.cons_append] at he
        obtain ⟨rfl, hxs⟩ := List.cons.inj he
        refine Or.inr ⟨hrun x (by simp), ?_⟩
        exact ih2.mpr
          (hxs ▸ GlobSpec.dstar rs ts s (fun c hc => hrun c (by simp [hc])) htl)

/-- The matcher with its default fuel decides the declarative relation. -/
theorem globMatch_iff (ts : List GTok) (s : List Char) :
    globMatch ts s = true ↔ GlobSpec ts s :=
  globMatchF_iff (ts.length + s.length + 1) ts s (Nat.lt_succ_self _)

theorem natCmp_swap (a b : Nat) : natCmp a b = (natCmp b a).swap := by
  unfold natCmp
  by_cases h1 : a < b
  · have h2 : ¬ b < a := by omega
    simp [h1, h2, Ordering.swap]
  · by_cases h2 : b < a
    · simp [h1, h2, Ordering.swap]
    · simp [h1, h2, Ordering.swap]

theorem intCmp_swap (a b : Int) : intCmp a b = (intCmp b a).swap := by
  unfold intCmp
  by_cases h1 : a < b
  · have h2 : ¬ b < a := by omega
    simp [h1, h2, Ordering.swap]
  · by_cases h2 : b < a
    · simp [h1, h2, Ordering.swap]
    · simp [h1, h2, Ordering.swap]

theorem charCmp_swap (a b : Char) : charCmp a b = (charCmp b a).swap :=
  natCmp_swap _ _

theorem tokCmp_swap (a b : NameTok) : tokCmp a b = (tokCmp b a).swap := by
  cases a <;> cases b
  · exact natCmp_swap _ _
  · rfl
  · rfl
  · exact charCmp_swap _ _

theorem lexTokCmp_swap : ∀ a b : List NameTok, lexTokCmp a b = (lexTokCmp b a).swap
  | [], [] => rfl
  | [], _ :: _ => rfl
  | _ :: _, [] => rfl
  | a :: as, b :: bs => by
    rw [lexTokCmp, lexTokCmp, tokCmp_swap a b]
    cases h : tokCmp b a <;> simp [Ordering.swap, lexTokCmp_swap as bs]

theorem nameCmp_swap (a b : String) : nameCmp a b = (nameCmp b a).swap :=
  lexTokCmp_swap _ _

/-- A comparator satisfying the swap law never declares both directions
strictly greater. -/
theorem swap_gt_asymm {cmp : α → α → Ordering}
    (hs : ∀ a b, cmp a b = (cmp b a).swap) :
    ∀ a b, cmp a b = .gt → cmp b a ≠ .gt := by
  intro a b h1 h2
  rw [hs a b, h2] at h1
  simp [Ordering.swap] at h1

/-- Test for a path separator in a pattern, mirroring the includes checks
of the source (slash or backslash). -/
def hasSepStr (p : String) : Bool :=
  p.toList.any (fun c => c = '/' || c = '\\')

/-- Model of Node path.basename for slash-separated paths: trailing
separators are stripped, then the last component is taken. -/
def baseNameStr (p : String) : String :=
  let cs := p.toList
  let trimmed := (cs.reverse.dropWhile (fun c => c = '/')).reverse
  if trimmed.isEmpty then (if cs.isEmpty then "" else "/")
  else String.mk (trimmed.reverse.takeWhile (fun c => !(c = '/'))).reverse

/-- matchesPattern from src/utils/fs-helpers.ts: the pattern is compiled
to the anchored atom list and tested against the full path when the
pattern contains a separator, against the base name otherwise. -/
def matchesPattern (filePath pattern : String) : Bool :=
  let testPath := if hasSepStr pattern then filePath else baseNameStr filePath
  globMatch (compileGlob pattern.toList) testPath.toList

/-- C3 (amended): for every pattern free of the character U+0000 and every
candidate path, matchesPattern decides exactly the compiled glob
semantics: a star matches a separator-free run, a double star a run of
arbitrary characters - separators included - except the four ECMAScript
line terminators (its dot-star atom is compiled without the dotAll
flag), a question mark one non-separator character, every other
character matches literally, and a pattern without separators is matched
against the base name of the candidate instead of the full path. -/
theorem c3_matchesPattern_documented_semantics (filePath pattern : String)
    (hnul : ∀ c ∈ pattern.toList, c ≠ nulChar) :
    matchesPattern filePath pattern = true ↔
      GlobSpec (specTokens pattern.toList)
        (if hasSepStr pattern then filePath else baseNameStr filePath).toList := by
  simp only [matchesPattern, compileGlob]
  rw [globTok_nul_free pattern.toList hnul]
  exact globMatch_iff _ _

/-- Witness for C3: matching the concrete file src/main.ts against the
concrete pattern star-dot-ts. -/
theorem c3_matchesPattern_documented_semantics_witness :
    GlobSpec (specTokens ("*.ts").toList) ("main.ts").toList := by
  have h := c3_matchesPattern_documented_semantics "src/main.ts" "*.ts" (by decide)
  have he : (if hasSepStr "*.ts" then "src/main.ts" else baseNameStr "src/main.ts")
      = "main.ts" := by decide
  rw [he] at h
  exact h.mp (by decide)

/-- C3 counterexample, on two independent axes of the original claim.
First, a pattern consisting of the single character U+0000 collides with
the double-star placeholder of the source pipeline and matches the
unrelated base name ab, while the claimed semantics (all non-wildcard
characters match literally) rejects that candidate.  Second, the claimed
any-run reading of the double star fails even for a NUL-free pattern:
the name a-newline-b is a legal file name and lies in a-doublestar-b
under an any-run double star, but the compiled dot-star atom has no
dotAll flag, so the code rejects it. -/
theorem c3_nul_pattern_counterexample :
    (matchesPattern "ab" "\x00" = true ∧
      ¬ GlobSpec (specTokens ("\x00").toList) ("ab").toList) ∧
    matchesPattern "a\nb" "a**b" = false := by
  refine ⟨⟨by decide, ?_⟩, by decide⟩
  intro h
  have hm := (globMatch_iff (specTokens ("\x00").toList) ("ab").toList).mpr h
  exact absurd hm (by decide)

/- ==================================================================
   AdvancedCache (src/utils/cache.ts lines 20-78)

   A JavaScript Map from string keys to records holding the stored
   data, the insertion timestamp and the time-to-live.  The Map is
   modelled as an association list with pairwise distinct keys (a Map
   cannot hold a key twice); Map.set keeps the position of an existing
   key, Map.delete removes it, iteration order is list order.  Clock
   readings (Date.now) are passed in explicitly as integers.
   ================================================================== -/

structure CacheRec (α : Type) where
  data : α
  ts : Int
  ttl : Int

/-- Map.set: replace in place if the key exists, append otherwise. -/
def mapSet (k : String) (v : CacheRec α) :
    List (String × CacheRec α) → List (String × CacheRec α)
  | [] => [(k, v)]
  | (k2, v2) :: rest =>
    if k2 = k then (k, v) :: rest else (k2, v2) :: mapSet k v rest

/-- Map.get as an option. -/
def mapGet (k : String) : List (String × CacheRec α) → Option (CacheRec α)
  | [] => none
  | (k2, v2) :: rest => if k2 = k then some v2 else mapGet k rest

/-- Map.delete. -/
def mapDelete (k : String) :
    List (String × CacheRec α) → List (String × CacheRec α)
  | [] => []
  | (k2, v2) :: rest =>
    if k2 = k then rest else (k2, v2) :: mapDelete k rest

/-- An entry is expired when strictly more than its ttl has elapsed. -/
def recExpired (now : Int) (r : CacheRec α) : Bool :=
  now - r.ts > r.ttl

/-- The private cleanup pass: drop every expired entry. -/
def cacheCleanup (now : Int) (c : List (String × CacheRec α)) :
    List (String × CacheRec α) :=
  c.filter (fun e => !recExpired now e.2)

/-- AdvancedCache.set: insert the record, then run the occasional cleanup
exactly when the resulting size is divisible by 40. -/
def cacheSet (c : List (String × CacheRec α)) (k : String) (data : α)
    (ttl : Int) (now : Int) : List (String × CacheRec α) :=
  let c2 := mapSet k ⟨data, now, ttl⟩ c
  if c2.length % 40 = 0 then cacheCleanup now c2 else c2

/-- AdvancedCache.get: a missing key yields null, an expired entry is
deleted and yields null, otherwise the stored data is returned.  The
returned pair carries the possibly mutated map. -/
def cacheGet (c : List (String × CacheRec α)) (k : String) (now : Int) :
    Option α × List (String × CacheRec α) :=
  match mapGet k c with
  | none => (none, c)
  | some r =>
    if recExpired now r then (none, mapDelete k c) else (some r.data, c)

/-- AdvancedCache.has: defined as get(key) being non-null, with the same
mutation. -/
def cacheHas (c : List (String × CacheRec α)) (k : String) (now : Int) :
    Bool × List (String × CacheRec α) :=
  let g := cacheGet c k now
  (g.1.isSome, g.2)

theorem mapGet_mapSet_self (k : String) (v : CacheRec α)
    (c : List (String × CacheRec α)) : mapGet k (mapSet k v c) = some v := by
  induction c with
  | nil => simp [mapSet, mapGet]
  | cons e rest ih =>
    obtain ⟨k2, v2⟩ := e
    rw [mapSet]
    by_cases h : k2 = k
    · rw [if_pos h]
      simp [mapGet]
    · rw [if_neg h, mapGet, if_neg h]
      exact ih

theorem mapGet_eq_none_of_not_mem (k : String)
    (c : List (String × CacheRec α)) (h : k ∉ c.map Prod.fst) :
    mapGet k c = none := by
  induction c with
  | nil => rfl
  | cons e rest ih =>
    obtain ⟨k2, v2⟩ := e
    simp only [List.map_cons, List.mem_cons] at h
    push_neg at h
    rw [mapGet, if_neg (fun he => h.1 he.symm)]
    exact ih h.2

theorem keys_mapSet (k : String) (v : CacheRec α)
    (c : List (String × CacheRec α)) :
    (mapSet k v c).map Prod.fst =
      if k ∈ c.map Prod.fst then c.map Prod.fst else c.map Prod.fst ++ [k] := by
  induction c with
  | nil => simp [mapSet]
  | cons e rest ih =>
    obtain ⟨k2, v2⟩ := e
    rw [mapSet]
    by_cases h : k2 = k
    · subst h
      simp
    · rw [if_neg h]
      simp only [List.map_cons, ih]
      by_cases hm : k ∈ rest.map Prod.fst
      · rw [if_pos hm, if_pos (by simp [hm])]
      · have hnotin : k ∉ k2 :: rest.map Prod.fst := by
          simp only [List.mem_cons]
          push_neg
          exact ⟨fun he => h he.symm, hm⟩
        rw [if_neg hm, if_neg hnotin, List.cons_append]

theorem nodup_keys_mapSet (k : String) (v : CacheRec α)
    (c : List (String × CacheRec α)) (h : (c.map Prod.fst).Nodup) :
    ((mapSet k v c).map Prod.fst).Nodup := by
  rw [keys_mapSet]
  by_cases hm : k ∈ c.map Prod.fst
  · rw [if_pos hm]
    exact h
  · rw [if_neg hm]
    refine List.Nodup.append h (List.nodup_singleton k) ?_
    intro a ha hb
    simp only [List.mem_singleton] at hb
    subst hb
    exact hm ha

theorem nodup_keys_filter (p : String × CacheRec α → Bool)
    (c : List (String × CacheRec α)) (h : (c.map Prod.fst).Nodup) :
    ((c.filter p).map Prod.fst).Nodup :=
  have hsub : List.Sublist ((c.filter p).map Prod.fst) (c.map Prod.fst) :=
    (List.filter_sublist c).map Prod.fst
  List.Nodup.sublist hsub h

theorem mapGet_filter (k : String) (p : String × CacheRec α → Bool)
    (c : List (String × CacheRec α)) (h : (c.map Prod.fst).Nodup) :
    mapGet k (c.filter p) =
      (mapGet k c).bind (fun r => if p (k, r) then some r else none) := by
  induction c with
  | nil => rfl
  | cons e rest ih =>
    obtain ⟨k2, v2⟩ := e
    simp only [List.map_cons, List.nodup_cons] at h
    rw [List.filter_cons]
    by_cases hk : k2 = k
    · subst hk
      by_cases hp : p (k2, v2)
      · rw [if_pos hp]
        simp [mapGet, hp]
      · rw [if_neg hp]
        rw [mapGet_eq_none_of_not_mem k2 (rest.filter p) (fun hmem => h.1 (by
          obtain ⟨e2, he2, heq⟩ := List.mem_map.mp hmem
          exact List.mem_map.mpr ⟨e2, List.mem_of_mem_filter he2, heq⟩))]
        simp [mapGet, hp]
    · by_cases hp : p (k2, v2)
      · rw [if_pos hp, mapGet, if_neg hk, mapGet, if_neg hk]
        exact ih h.2
      · rw [if_neg hp, mapGet, if_neg hk]
        exact ih h.2

theorem mapGet_mapDelete_self (k : String)
    (c : List (String × CacheRec α)) (h : (c.map Prod.fst).Nodup) :
    mapGet k (mapDelete k c) = none := by
  induction c with
  | nil => rfl
  | cons e rest ih =>
    obtain ⟨k2, v2⟩ := e
    simp only [List.map_cons, List.nodup_cons] at h
    rw [mapDelete]
    by_cases hk : k2 = k
    · rw [if_pos hk]
      subst hk
      exact mapGet_eq_none_of_not_mem _ _ h.1
    · rw [if_neg hk, mapGet, if_neg hk]
      exact ih h.2

/-- C10: after AdvancedCache.set(key, value, ttl) performed at time t0 on a
map with pairwise distinct keys, a get(key) at any time t within ttl
milliseconds of the set returns the stored value; a get(key) strictly more
than ttl milliseconds after the set returns null and leaves no entry for
the key in the resulting map; and has(key) returns true exactly when
get(key) returns non-null. -/
theorem c10_advanced_cache_ttl (c : List (String × CacheRec α)) (k : String)
    (v : α) (ttl t0 t : Int) (hnd : (c.map Prod.fst).Nodup) (hle : t0 ≤ t) :
    ((t - t0 ≤ ttl → (cacheGet (cacheSet c k v ttl t0) k t).1 = some v) ∧
      (t - t0 > ttl → (cacheGet (cacheSet c k v ttl t0) k t).1 = none ∧
        mapGet k (cacheGet (cacheSet c k v ttl t0) k t).2 = none)) ∧
    ∀ (c2 : List (String × CacheRec α)) (k2 : String) (t2 : Int),
      (cacheHas c2 k2 t2).1 = ((cacheGet c2 k2 t2).1).isSome := by
  have hset : mapGet k (mapSet k ⟨v, t0, ttl⟩ c) = some ⟨v, t0, ttl⟩ :=
    mapGet_mapSet_self k _ c
  have hnd2 : ((mapSet k ⟨v, t0, ttl⟩ c).map Prod.fst).Nodup :=
    nodup_keys_mapSet k _ c hnd
  refine ⟨⟨?_, ?_⟩, fun c2 k2 t2 => rfl⟩
  · intro hin
    have httl : (0 : Int) ≤ ttl := by omega
    have hkey : mapGet k (cacheSet c k v ttl t0) = some ⟨v, t0, ttl⟩ := by
      unfold cacheSet
      by_cases hcl : (mapSet k ⟨v, t0, ttl⟩ c).length % 40 = 0
      · rw [if_pos hcl]
        unfold cacheCleanup
        rw [mapGet_filter k _ _ hnd2, hset]
        have : recExpired t0 (⟨v, t0, ttl⟩ : CacheRec α) = false := by
          simp only [recExpired]
          simp
          omega
        simp [this]
      · rw [if_neg hcl]
        exact hset
    unfold cacheGet
    rw [hkey]
    have : recExpired t (⟨v, t0, ttl⟩ : CacheRec α) = false := by
      simp only [recExpired]
      simp
      omega
    simp [this]
  · intro hout
    have hndcs : ((cacheSet c k v ttl t0).map Prod.fst).Nodup := by
      unfold cacheSet
      by_cases hcl : (mapSet k ⟨v, t0, ttl⟩ c).length % 40 = 0
      · rw [if_pos hcl]
        exact nodup_keys_filter _ _ hnd2
      · rw [if_neg hcl]
        exact hnd2
    by_cases hkeep : mapGet k (cacheSet c k v ttl t0) = some ⟨v, t0, ttl⟩
    · unfold cacheGet
      rw [hkeep]
      have hx : recExpired t (⟨v, t0, ttl⟩ : CacheRec α) = true := by
        simp only [recExpired]
        simp
        omega
      simp only [hx, if_true]
      exact ⟨trivial, mapGet_mapDelete_self k _ hndcs⟩
    · have hnone : mapGet k (cacheSet c k v ttl t0) = none := by
        unfold cacheSet at hkeep ⊢
        by_cases hcl : (mapSet k ⟨v, t0, ttl⟩ c).length % 40 = 0
        · rw [if_pos hcl] at hkeep ⊢
          unfold cacheCleanup at hkeep ⊢
          rw [mapGet_filter k _ _ hnd2, hset] at hkeep ⊢
          by_cases hex : recExpired t0 (⟨v, t0, ttl⟩ : CacheRec α) = true
          · simp [hex]
          · simp [hex] at hkeep
        · rw [if_neg hcl] at hkeep
          exact absurd hset hkeep
      unfold cacheGet
      rw [hnone]
      exact ⟨rfl, hnone⟩

/-- Witness for C10: storing the value 7 under a key with a 10 ms ttl in
an empty cache at time 0 and reading it back at time 5. -/
theorem c10_advanced_cache_ttl_witness :
    (cacheGet (cacheSet ([] : List (String × CacheRec Int)) "k" 7 10 0) "k" 5).1
      = some 7 :=
  ((c10_advanced_cache_ttl [] "k" 7 10 0 5 (by simp) (by omega)).1.1) (by omega)

/- ==================================================================
   Configuration (src/models/config.interface.ts and the constructor
   default-filling shared verbatim by StructureGenerator and
   StreamingGenerator).

   A partially-specified config distinguishes an absent field from an
   explicit null (the nullish-coalescing operator only replaces absent
   or undefined fields), hence the nested options on the list-valued
   fields.  Numeric fields are integers; maxDepth deliberately ranges
   over all of Int because the constructor performs no validation.
   ================================================================== -/

inductive SortKey where
  | name
  | size
  | modified
  | type
deriving DecidableEq

inductive OutFormat where
  | tree
  | json
  | markdown
  | xml
  | csv
deriving DecidableEq

inductive IconStyle where
  | emoji
  | unicode
  | ascii
  | none
deriving DecidableEq

structure PartialConfig where
  includeHidden : Option Bool := Option.none
  extensionFilter : Option (Option (List String)) := Option.none
  excludeFolders : Option (Option (List String)) := Option.none
  excludePatterns : Option (Option (List String)) := Option.none
  maxDepth : Option Int := Option.none
  respectGitignore : Option Bool := Option.none
  includeSize : Option Bool := Option.none
  includePermissions : Option Bool := Option.none
  includeModifiedDate : Option Bool := Option.none
  sortBy : Option SortKey := Option.none
  outputFormat : Option OutFormat := Option.none
  useWorker : Option Bool := Option.none
  useStreaming : Option Bool := Option.none
  iconStyle : Option IconStyle := Option.none
  customIcons : Option (List (String × String)) := Option.none
  compressLargeDirs : Option Bool := Option.none
  compressionThreshold : Option Int := Option.none
  autoSave : Option Bool := Option.none
  autoOpen : Option Bool := Option.none
deriving DecidableEq

structure StructureConfig where
  includeHidden : Bool
  extensionFilter : Option (List String)
  excludeFolders : Option (List String)
  excludePatterns : Option (List String)
  maxDepth : Int
  respectGitignore : Bool
  includeSize : Bool
  includePermissions : Bool
  includeModifiedDate : Bool
  sortBy : SortKey
  outputFormat : OutFormat
  useWorker : Bool
  useStreaming : Bool
  iconStyle : IconStyle
  customIcons : List (String × String)
  compressLargeDirs : Bool
  compressionThreshold : Int
  autoSave : Bool
  autoOpen : Bool
deriving DecidableEq

/-- The constructor of both generators: every absent field is filled with
its documented default and nothing is validated. -/
def resolveConfig (c : PartialConfig) : StructureConfig where
  includeHidden := c.includeHidden.getD false
  extensionFilter := c.extensionFilter.getD Option.none
  excludeFolders := c.excludeFolders.getD Option.none
  excludePatterns := c.excludePatterns.getD Option.none
  maxDepth := c.maxDepth.getD 0
  respectGitignore := c.respectGitignore.getD true
  includeSize := c.includeSize.getD false
  includePermissions := c.includePermissions.getD false
  includeModifiedDate := c.includeModifiedDate.getD false
  sortBy := c.sortBy.getD SortKey.name
  outputFormat := c.outputFormat.getD OutFormat.tree
  useWorker := c.useWorker.getD false
  useStreaming := c.useStreaming.getD false
  iconStyle := c.iconStyle.getD IconStyle.emoji
  customIcons := c.customIcons.getD []
  compressLargeDirs := c.compressLargeDirs.getD true
  compressionThreshold := c.compressionThreshold.getD 50
  autoSave := c.autoSave.getD true
  autoOpen := c.autoOpen.getD true

/- ==================================================================
   Filesystem model

   A directory tree as seen through fs.promises.readdir (withFileTypes),
   fs.promises.stat and fs.promises.readFile.  A node carries its stat
   result (none when stat fails), directories carry a readability flag
   (readdir throws on an unreadable directory), files carry a
   readability flag (readFile throws) and their text content, which the
   embedding only ever consumes for gitignore files.  Symlinks are
   leaves, exactly as Dirent classifies them (isDirectory is false for a
   symlink even when its target is a directory).  Paths are segment
   lists rendered with slashes; nothing exists above the traversal root.
   The stats and gitignore caches of the source are keyed by path and
   only memoize deterministic lookups on this immutable tree, so they
   are observationally transparent and carry no state here.
   ================================================================== -/

structure Meta where
  size : Int
  mode : Nat
  mtimeMs : Int
deriving DecidableEq

inductive FSNode where
  | file (name : String) (stat : Option Meta) (content : String) (readable : Bool)
  | symlink (name : String) (stat : Option Meta)
  | dir (name : String) (stat : Option Meta) (readable : Bool) (children : List FSNode)

def FSNode.nodeName : FSNode → String
  | .file n _ _ _ => n
  | .symlink n _ => n
  | .dir n _ _ _ => n

def FSNode.stat : FSNode → Option Meta
  | .file _ s _ _ => s
  | .symlink _ s => s
  | .dir _ s _ _ => s

/-- Dirent.isDirectory. -/
def FSNode.isDirB : FSNode → Bool
  | .dir _ _ _ _ => true
  | _ => false

/-- Dirent.isFile: regular files only. -/
def FSNode.isFileB : FSNode → Bool
  | .file _ _ _ _ => true
  | _ => false

/-- The FileEntry type tag computed by both generators: isDirectory,
else isSymbolicLink, else file. -/
def FSNode.kind : FSNode → EntryKind
  | .file _ _ _ _ => EntryKind.file
  | .symlink _ _ => EntryKind.symlink
  | .dir _ _ _ _ => EntryKind.directory

mutual

/-- Node count, used as recursion fuel: every recursive call of the
walkers descends into a child, so the node count of the root bounds the
recursion depth from above. -/
def nodeSize : FSNode → Nat
  | .file _ _ _ _ => 1
  | .symlink _ _ => 1
  | .dir _ _ _ kids => 1 + forestSize kids

/-- Sum of node counts of a forest. -/
def forestSize : List FSNode → Nat
  | [] => 0
  | n :: rest => nodeSize n + forestSize rest

end

/-- Render a segment path with slash separators (the model of the strings
path.join produces). -/
def pathString (p : List String) : String :=
  String.intercalate "/" p

/-- Model of path.basename on a segment path, with the source fallback
basename-or-the-path-itself for degenerate paths. -/
def basenameOfPath (p : List String) : String :=
  match p.getLast? with
  | some s => s
  | Option.none => ""

/-- Model of path.relative from an ancestor directory to a descendant:
drop the ancestor segments and rejoin with slashes. -/
def relPathString (base full : List String) : String :=
  String.intercalate "/" (full.drop base.length)

/- ==================================================================
   Gitignore resolution (getGitignoreRules and findNearestGitignore,
   src/utils/fs-helpers.ts lines 28-66)

   The walker hands the resolver the chain of already-visited ancestor
   directories, each with its path and raw child listing - this is the
   filesystem as findNearestGitignore can observe it by climbing from
   the queried directory; nothing exists above the traversal root.
   fs.promises.access succeeds on any existing child named .gitignore,
   and the subsequent readFile is NOT guarded by a try block in the
   source: an unreadable file surfaces as a rejection, modelled by
   Except.error.  The per-directory cache only memoizes this
   deterministic computation and is not modelled.
   ================================================================== -/

/-- Kernel-computable models of the string functions the pipeline uses:
does the string start with the given character. -/
def startsWithChar (s : String) (c : Char) : Bool :=
  match s.toList with
  | [] => false
  | c2 :: _ => c2 = c

/-- Lower-casing, character by character. -/
def lowerStr (s : String) : String :=
  String.mk (s.toList.map Char.toLower)

/-- Whitespace trim on both ends. -/
def trimStr (s : String) : String :=
  String.mk (((s.toList.dropWhile Char.isWhitespace).reverse.dropWhile
    Char.isWhitespace).reverse)

/-- Split on a separator character (the model of splitting on newlines). -/
def splitOnChar (sep : Char) : List Char → List (List Char)
  | [] => [[]]
  | c :: cs =>
    if c = sep then [] :: splitOnChar sep cs
    else
      match splitOnChar sep cs with
      | [] => [[c]]
      | g :: gs => (c :: g) :: gs

/-- Split a string into its lines. -/
def splitLines (s : String) : List String :=
  (splitOnChar '\n' s.toList).map String.mk

abbrev Scope := List (List String × List FSNode)

structure GitignoreRules where
  base : List String
  patterns : List String
deriving DecidableEq

/-- GitignoreRules.isIgnored: some pattern matches the path relative to
the directory containing the governing gitignore file. -/
def rulesIsIgnored (r : GitignoreRules) (full : List String) : Bool :=
  r.patterns.any (fun p => matchesPattern (relPathString r.base full) p)

/-- Parse of the gitignore text: split on newlines, trim, drop blank
lines and comment lines. -/
def parseGitignore (content : String) : List String :=
  ((splitLines content).map trimStr).filter
    (fun l => !l.isEmpty && !(startsWithChar l '#'))

/-- findNearestGitignore: climb the ancestor chain until some directory
has a child named .gitignore; fs.promises.access only tests existence. -/
def findNearestGitignore : Scope → Option (List String × FSNode)
  | [] => Option.none
  | (p, kids) :: rest =>
    match kids.find? (fun n => n.nodeName = ".gitignore") with
    | some n => some (p, n)
    | Option.none => findNearestGitignore rest

/-- getGitignoreRules: no gitignore anywhere yields null; a found
gitignore is read and parsed, and the read failure of an existing but
unreadable (or non-regular) gitignore propagates as an error because the
source performs the readFile outside any try block. -/
def getGitignoreRules (sc : Scope) : Except Unit (Option GitignoreRules) :=
  match findNearestGitignore sc with
  | Option.none => Except.ok Option.none
  | some (base, FSNode.file _ _ content true) =>
    Except.ok (some ⟨base, parseGitignore content⟩)
  | some _ => Except.error ()

/- ==================================================================
   Filter pipeline (filterAndSort, duplicated verbatim in
   src/core/generator.ts lines 180-239 and
   src/core/streaming-generator.ts lines 196-253; embedded once)
   ================================================================== -/

/-- Model of path.extname(name).slice(1).toLowerCase(): the characters
after the last dot, empty when there is no dot or the only dot starts the
name. -/
def extSlice (name : String) : String :=
  let cs := name.toList
  let afterRev := cs.reverse.takeWhile (fun c => !(c = '.'))
  if afterRev.length = cs.length then ""
  else if cs.length - afterRev.length - 1 = 0 then ""
  else String.mk afterRev.reverse

/-- The inline comparator of filterAndSort: directories first and
numeric-aware name order, but only when the active sort key is name;
otherwise no preference, leaving enumeration order to the stable sort. -/
def direntCmp (key : SortKey) (a b : FSNode) : Ordering :=
  if key = SortKey.name then
    if a.isDirB && !b.isDirB then .lt
    else if !a.isDirB && b.isDirB then .gt
    else nameCmp a.nodeName b.nodeName
  else .eq

/-- filterAndSort: hidden filter, folder exclusion, extension whitelist,
glob exclusion, gitignore, final sort.  The scope argument must have the
queried directory itself at its head. -/
def filterAndSort (cfg : StructureConfig) (sc : Scope) (parent : List String)
    (items : List FSNode) : Except Unit (List FSNode) :=
  let out1 := items.filter (fun i => cfg.includeHidden || !(startsWithChar i.nodeName '.'))
  let out2 := match cfg.excludeFolders with
    | Option.none => out1
    | some ex => out1.filter (fun i => !(i.isDirB && ex.contains i.nodeName))
  let out3 := match cfg.extensionFilter with
    | Option.none => out2
    | some exts =>
      if out2.any FSNode.isFileB then
        out2.filter (fun i =>
          if i.isFileB then exts.contains (lowerStr (extSlice i.nodeName)) else true)
      else out2
  let out4 := match cfg.excludePatterns with
    | Option.none => out3
    | some pats =>
      out3.filter (fun i =>
        !(pats.any (fun p => matchesPattern (pathString (parent ++ [i.nodeName])) p)))
  match (if cfg.respectGitignore then getGitignoreRules sc else Except.ok Option.none) with
  | Except.error e => Except.error e
  | Except.ok orules =>
    let out5 := match orules with
      | Option.none => out4
      | some rules => out4.filter (fun i => !(rulesIsIgnored rules (parent ++ [i.nodeName])))
    Except.ok (stableSortBy (direntCmp cfg.sortBy) out5)

/- ==================================================================
   FileEntry, metadata decoration and events
   ================================================================== -/

/-- FileEntry (src/models/file-entry.interface.ts); the source field
named type is called kind here, modified timestamps are epoch
milliseconds. -/
structure FileEntry where
  name : String
  path : List String
  kind : EntryKind
  size : Option Int
  permissions : Option String
  modified : Option Int
  children : Option (List FileEntry)

/-- permissionsString of src/utils/fs-helpers.ts: nine characters from
bit 8 down to bit 0 of the mode, cycling r w x. -/
def permissionsString (mode : Nat) : String :=
  String.mk ((List.range 9).map (fun j =>
    if mode.testBit (8 - j) then
      if j % 3 = 0 then 'r' else if j % 3 = 1 then 'w' else 'x'
    else '-'))

/-- The per-entry metadata block of the eager builder: when any metadata
flag is on and the stat succeeded, the size is copied unconditionally and
permissions and modification date only under their own flags. -/
def eagerAddMeta (cfg : StructureConfig) (e : FileEntry) (st : Option Meta) :
    FileEntry :=
  if cfg.includeSize || cfg.includePermissions || cfg.includeModifiedDate then
    match st with
    | some m =>
      { e with
        size := some m.size
        permissions :=
          if cfg.includePermissions then some (permissionsString m.mode)
          else e.permissions
        modified :=
          if cfg.includeModifiedDate then some m.mtimeMs else e.modified }
    | Option.none => e
  else e

/-- StreamingGenerator.addMetadata: identical gate, but every field is
copied only under its own flag. -/
def streamAddMeta (cfg : StructureConfig) (e : FileEntry) (st : Option Meta) :
    FileEntry :=
  if !cfg.includeSize && !cfg.includePermissions && !cfg.includeModifiedDate then e
  else
    match st with
    | some m =>
      { e with
        size := if cfg.includeSize then some m.size else e.size
        permissions :=
          if cfg.includePermissions then some (permissionsString m.mode)
          else e.permissions
        modified :=
          if cfg.includeModifiedDate then some m.mtimeMs else e.modified }
    | Option.none => e

/-- StreamEvent (src/models/stream.interface.ts). -/
inductive StreamEvent where
  | start (root : String)
  | fileEv (entry : FileEntry) (pre : String) (isLast : Bool)
  | dirOpen (entry : FileEntry) (pre : String) (isLast : Bool)
  | dirClose
  | progress (processed : Nat)
  | endEv (durationMs : Int) (totalItems : Nat)

/-- The error conditions a traversal can signal: the cancellation error,
a propagated gitignore read failure, and (eager mode only) a readdir
failure.  The constructors are distinct by definition, which models that
the thrown errors are distinguishable. -/
inductive GenError where
  | cancelled
  | gitignoreRead
  | dirRead
deriving DecidableEq

/-- Mutable traversal state: the processed-items counter and the number
of cancellation checks performed so far. -/
structure GenState where
  processed : Nat
  checks : Nat
deriving DecidableEq

/-- The cancellation callback: an optional oracle consulted once per
directory entry, indexed by how many checks happened before. -/
abbrev CancelOracle := Option (Nat → Bool)

def checkCancelled (canc : CancelOracle) (st : GenState) : Bool × GenState :=
  match canc with
  | Option.none => (false, st)
  | some f => (f st.checks, { st with checks := st.checks + 1 })

/-- StreamingGenerator.shouldCompressDirectory: re-reads the raw listing
(unfiltered) and compares its length with the threshold; an unreadable
directory counts as not compressed. -/
def shouldCompressDirectory (cfg : StructureConfig) : FSNode → Bool
  | FSNode.dir _ _ readable kids =>
    if !cfg.compressLargeDirs then false
    else if readable then decide ((kids.length : Int) > cfg.compressionThreshold)
    else false
  | _ => false

/- ==================================================================
   Streaming walker (StreamingGenerator.generate / streamDir,
   src/core/streaming-generator.ts lines 63-152)

   The async generator is embedded as a function returning the list of
   events yielded before the computation either finished (no error) or
   threw (some error); when it throws, the events produced so far are
   still what the consumer received, and the remaining items of every
   enclosing loop are abandoned.  The recursion is realized through a
   fuel argument bounded by the node count; streamGenerate instantiates
   sufficient fuel, so the fuel never runs out on the entry point.
   ================================================================== -/

abbrev StreamRes := List StreamEvent × GenState × Option GenError

/-- Processing of one item of the filtered listing of streamDir:
progress accounting and event, entry creation with metadata, then either
the directory open/recurse/close bracket (recursion skipped for a
compressed directory, close suppressed when the recursion threw) or a
single file event. -/
def streamOne
    (recurse : FSNode → List String → Scope → String → Int → GenState → StreamRes)
    (cfg : StructureConfig) (parent : List String) (sc : Scope) (pre : String)
    (depth : Int) (isLast : Bool) (st : GenState) (item : FSNode) : StreamRes :=
  let itemPath := parent ++ [item.nodeName]
  let st1 : GenState := { st with processed := st.processed + 1 }
  let progEvs : List StreamEvent :=
    if st1.processed % 100 = 0 then [StreamEvent.progress st1.processed] else []
  let entry := streamAddMeta cfg
    { name := item.nodeName, path := itemPath, kind := item.kind,
      size := Option.none, permissions := Option.none, modified := Option.none,
      children := Option.none } item.stat
  if item.isDirB then
    let nested :=
      if shouldCompressDirectory cfg item then ([], st1, Option.none)
      else recurse item itemPath sc
        (pre ++ (if isLast then "    " else "│   ")) (depth + 1) st1
    match nested with
    | (nevs, st2, some e) =>
      (progEvs ++ StreamEvent.dirOpen entry pre isLast :: nevs, st2, some e)
    | (nevs, st2, Option.none) =>
      (progEvs ++ StreamEvent.dirOpen entry pre isLast ::
        (nevs ++ [StreamEvent.dirClose]), st2, Option.none)
  else
    (progEvs ++ [StreamEvent.fileEv entry pre isLast], st1, Option.none)

/-- The per-directory item loop of streamDir: items are processed in
order, stopping (with the events emitted so far) when one of them threw.
The recurse argument is the walker at the next fuel level; total is the
filtered length and idx the current index (isLast compares them). -/
def streamItems
    (recurse : FSNode → List String → Scope → String → Int → GenState → StreamRes)
    (cfg : StructureConfig) (parent : List String) (sc : Scope) (pre : String)
    (depth : Int) (total : Nat) :
    Nat → GenState → List FSNode → StreamRes
  | _, st, [] => ([], st, Option.none)
  | idx, st, item :: rest =>
    match streamOne recurse cfg parent sc pre depth (idx = total - 1) st item with
    | (evs, st2, some e) => (evs, st2, some e)
    | (evs, st2, Option.none) =>
      match streamItems recurse cfg parent sc pre depth total (idx + 1) st2 rest with
      | (revs, st3, err3) => (evs ++ revs, st3, err3)

/-- streamDir: cancellation check, depth guard, readdir (skip silently on
failure), filter, then the item loop. -/
def streamDirF : Nat → StructureConfig → CancelOracle → FSNode → List String →
    Scope → String → Int → GenState → StreamRes
  | 0, _, _, _, _, _, _, _, st => ([], st, Option.none)
  | _ + 1, cfg, canc, FSNode.file _ _ _ _, _, _, _, depth, st =>
    let st1 := (checkCancelled canc st).2
    if (checkCancelled canc st).1 then ([], st1, some GenError.cancelled)
    else if cfg.maxDepth ≠ 0 ∧ depth ≥ cfg.maxDepth then ([], st1, Option.none)
    else ([], st1, Option.none)
  | _ + 1, cfg, canc, FSNode.symlink _ _, _, _, _, depth, st =>
    let st1 := (checkCancelled canc st).2
    if (checkCancelled canc st).1 then ([], st1, some GenError.cancelled)
    else if cfg.maxDepth ≠ 0 ∧ depth ≥ cfg.maxDepth then ([], st1, Option.none)
    else ([], st1, Option.none)
  | f + 1, cfg, canc, FSNode.dir _ _ readable kids, selfPath, scAbove, pre, depth, st =>
    let st1 := (checkCancelled canc st).2
    if (checkCancelled canc st).1 then ([], st1, some GenError.cancelled)
    else if cfg.maxDepth ≠ 0 ∧ depth ≥ cfg.maxDepth then ([], st1, Option.none)
    else
      if !readable then ([], st1, Option.none)
      else
        match filterAndSort cfg ((selfPath, kids) :: scAbove) selfPath kids with
        | Except.error _ => ([], st1, some GenError.gitignoreRead)
        | Except.ok filtered =>
          streamItems (streamDirF f cfg canc) cfg selfPath
            ((selfPath, kids) :: scAbove) pre depth filtered.length 0 st1 filtered

/-- StreamingGenerator.generate: a start event, the walk of the root at
depth 0 with empty prefix, and on successful completion a terminal end
event carrying the elapsed time (passed in, since wall-clock readings are
opaque here) and the processed count. -/
def streamGenerate (cfg : StructureConfig) (canc : CancelOracle) (root : FSNode)
    (rootPath : List String) (durationMs : Int) (st : GenState) : StreamRes :=
  match streamDirF (nodeSize root) cfg canc root rootPath [] "" 0 st with
  | (evs, st2, some e) => (StreamEvent.start (pathString rootPath) :: evs, st2, some e)
  | (evs, st2, Option.none) =>
    (StreamEvent.start (pathString rootPath) ::
      (evs ++ [StreamEvent.endEv durationMs st2.processed]), st2, Option.none)

/- ==================================================================
   Eager builder (StructureGenerator.buildTree and sortEntries,
   src/core/generator.ts lines 64-268)

   Exceptions (cancellation, readdir failures, gitignore read failures)
   are Except errors: the eager builder has no try blocks, so every one
   of them aborts the whole generate call.  The same fuel discipline as
   for the streaming walker applies.
   ================================================================== -/

def kindString : EntryKind → String
  | EntryKind.file => "file"
  | EntryKind.directory => "directory"
  | EntryKind.symlink => "symlink"

/-- The comparator of StructureGenerator.sortEntries: the directories
first rule runs before the key switch for every key (the source comment
claims an exception for the type key, but the code applies it always),
then size and modified descending with missing values as zero, type by
its string, and name numeric-aware. -/
def entryCmp (key : SortKey) (a b : FileEntry) : Ordering :=
  if a.kind = EntryKind.directory ∧ b.kind ≠ EntryKind.directory then .lt
  else if a.kind ≠ EntryKind.directory ∧ b.kind = EntryKind.directory then .gt
  else
    match key with
    | SortKey.size => intCmp (b.size.getD 0) (a.size.getD 0)
    | SortKey.modified => intCmp (b.modified.getD 0) (a.modified.getD 0)
    | SortKey.type => nameCmp (kindString a.kind) (kindString b.kind)
    | SortKey.name => nameCmp a.name b.name

mutual

/-- Recursive sort of one entry: sort its children list (if any) with the
key comparator and recurse.  The source sorts the list first and then the
grandchildren in place; the two orders commute, hence the composition
here. -/
def sortEntry (key : SortKey) : FileEntry → FileEntry
  | FileEntry.mk n p k s pm m Option.none =>
    FileEntry.mk n p k s pm m Option.none
  | FileEntry.mk n p k s pm m (some cs) =>
    FileEntry.mk n p k s pm m (some (stableSortBy (entryCmp key) (sortEntryList key cs)))

def sortEntryList (key : SortKey) : List FileEntry → List FileEntry
  | [] => []
  | e :: rest => sortEntry key e :: sortEntryList key rest

end

/-- StructureGenerator.sortEntries on a children list. -/
def sortEntries (key : SortKey) (cs : List FileEntry) : List FileEntry :=
  stableSortBy (entryCmp key) (sortEntryList key cs)

abbrev BuildRes := Except GenError (FileEntry × GenState)

/-- The per-directory item loop of buildTree: progress counting, entry
creation with metadata, recursion into directories (adopting only the
children of the recursive result), all under exception propagation. -/
def buildItems
    (recurse : FSNode → List String → Scope → Int → GenState → BuildRes)
    (cfg : StructureConfig) (parent : List String) (sc : Scope) (depth : Int) :
    GenState → List FSNode → Except GenError (List FileEntry × GenState)
  | st, [] => Except.ok ([], st)
  | st, item :: rest =>
    let itemPath := parent ++ [item.nodeName]
    let st1 : GenState := { st with processed := st.processed + 1 }
    let child := eagerAddMeta cfg
      { name := item.nodeName, path := itemPath, kind := item.kind,
        size := Option.none, permissions := Option.none, modified := Option.none,
        children := Option.none } item.stat
    if item.isDirB then
      match recurse item itemPath sc (depth + 1) st1 with
      | Except.error e => Except.error e
      | Except.ok (sub, st2) =>
        match buildItems recurse cfg parent sc depth st2 rest with
        | Except.error e => Except.error e
        | Except.ok (others, st3) =>
          Except.ok ({ child with children := sub.children } :: others, st3)
    else
      match buildItems recurse cfg parent sc depth st1 rest with
      | Except.error e => Except.error e
      | Except.ok (others, st2) => Except.ok (child :: others, st2)

/-- buildTree: cancellation check, depth guard returning a collapsed
directory entry, directory metadata, readdir (failures propagate in eager
mode), filter, the item loop, and the final recursive sort. -/
def buildTreeF : Nat → StructureConfig → CancelOracle → FSNode → List String →
    Scope → Int → GenState → BuildRes
  | 0, _, _, _, selfPath, _, _, st =>
    Except.ok ({ name := basenameOfPath selfPath, path := selfPath,
                 kind := EntryKind.directory, size := Option.none,
                 permissions := Option.none, modified := Option.none,
                 children := some [] }, st)
  | _ + 1, cfg, canc, FSNode.file _ _ _ _, selfPath, _, depth, st =>
    let st1 := (checkCancelled canc st).2
    if (checkCancelled canc st).1 then Except.error GenError.cancelled
    else if cfg.maxDepth ≠ 0 ∧ depth ≥ cfg.maxDepth then
      Except.ok ({ name := basenameOfPath selfPath, path := selfPath,
                   kind := EntryKind.directory, size := Option.none,
                   permissions := Option.none, modified := Option.none,
                   children := some [] }, st1)
    else Except.error GenError.dirRead
  | _ + 1, cfg, canc, FSNode.symlink _ _, selfPath, _, depth, st =>
    let st1 := (checkCancelled canc st).2
    if (checkCancelled canc st).1 then Except.error GenError.cancelled
    else if cfg.maxDepth ≠ 0 ∧ depth ≥ cfg.maxDepth then
      Except.ok ({ name := basenameOfPath selfPath, path := selfPath,
                   kind := EntryKind.directory, size := Option.none,
                   permissions := Option.none, modified := Option.none,
                   children := some [] }, st1)
    else Except.error GenError.dirRead
  | f + 1, cfg, canc, FSNode.dir nm ns readable kids, selfPath, scAbove, depth, st =>
    let st1 := (checkCancelled canc st).2
    if (checkCancelled canc st).1 then Except.error GenError.cancelled
    else if cfg.maxDepth ≠ 0 ∧ depth ≥ cfg.maxDepth then
      Except.ok ({ name := basenameOfPath selfPath, path := selfPath,
                   kind := EntryKind.directory, size := Option.none,
                   permissions := Option.none, modified := Option.none,
                   children := some [] }, st1)
    else
      let entry := eagerAddMeta cfg
        { name := basenameOfPath selfPath, path := selfPath,
          kind := EntryKind.directory, size := Option.none,
          permissions := Option.none, modified := Option.none,
          children := some [] } (FSNode.dir nm ns readable kids).stat
      if !readable then Except.error GenError.dirRead
      else
        match filterAndSort cfg ((selfPath, kids) :: scAbove) selfPath kids with
        | Except.error _ => Except.error GenError.gitignoreRead
        | Except.ok filtered =>
          match buildItems (buildTreeF f cfg canc) cfg selfPath
              ((selfPath, kids) :: scAbove) depth st1 filtered with
          | Except.error e => Except.error e
          | Except.ok (childEntries, st2) =>
            Except.ok ({ entry with
              children := some (sortEntries cfg.sortBy childEntries) }, st2)

/-- StructureGenerator.generate up to formatting: the built tree plus the
processed count (the formatted text is a function of these and of
wall-clock readings). -/
def eagerGenerate (cfg : StructureConfig) (canc : CancelOracle) (root : FSNode)
    (rootPath : List String) (st : GenState) : BuildRes :=
  buildTreeF (nodeSize root) cfg canc root rootPath [] 0 st

theorem nodeSize_pos (n : FSNode) : 1 ≤ nodeSize n := by
  cases n <;> simp [nodeSize]

/-- C5: the claim (and the specification) require an existing but
unreadable gitignore to resolve like a missing one; the code instead
performs the readFile outside any try block, so resolution rejects.  At
the concrete failing input, a directory whose own listing holds an
unreadable .gitignore, getGitignoreRules propagates the error, while the
same directory without the file resolves to null. -/
theorem c5_unreadable_gitignore_rejects :
    getGitignoreRules [([], [FSNode.file ".gitignore" Option.none "secret.txt" false])]
      = Except.error () ∧
    getGitignoreRules [([], [])] = Except.ok Option.none :=
  ⟨rfl, rfl⟩

/-- C8 counterexample: a partially-specified configuration with maxDepth
minus one resolves without any failure, and the generator constructed
from it runs the traversal to a successful completion, returning the
collapsed root; construction-time rejection never happens. -/
theorem c8_negative_maxdepth_not_rejected :
    (resolveConfig { maxDepth := some (-1) }).maxDepth = -1 ∧
    eagerGenerate (resolveConfig { maxDepth := some (-1) }) Option.none
        (FSNode.dir "r" Option.none true [FSNode.file "a.txt" Option.none "" true])
        ["r"] ⟨0, 0⟩
      = Except.ok ({ name := "r", path := ["r"], kind := EntryKind.directory,
                     size := Option.none, permissions := Option.none,
                     modified := Option.none, children := some [] }, ⟨0, 0⟩) :=
  ⟨rfl, rfl⟩

/-- C8 (amended): config resolution performs no validation at all: a
negative maxDepth is accepted verbatim, and because every traversal depth
satisfies the depth-exceeded guard against a negative bound, the eager
generator immediately returns the root as a childless directory entry
instead of surfacing any construction failure. -/
theorem c8_negative_maxdepth_semantics (c : PartialConfig) (n : Int)
    (hmd : c.maxDepth = some n) (hneg : n < 0)
    (root : FSNode) (rootPath : List String) (st : GenState) :
    (resolveConfig c).maxDepth = n ∧
    eagerGenerate (resolveConfig c) Option.none root rootPath st =
      Except.ok ({ name := basenameOfPath rootPath, path := rootPath,
                   kind := EntryKind.directory, size := Option.none,
                   permissions := Option.none, modified := Option.none,
                   children := some [] }, st) := by
  have hres : (resolveConfig c).maxDepth = n := by
    simp [resolveConfig, hmd]
  refine ⟨hres, ?_⟩
  unfold eagerGenerate
  obtain ⟨m, hm⟩ : ∃ m, nodeSize root = m + 1 := by
    have := nodeSize_pos root
    exact ⟨nodeSize root - 1, by omega⟩
  rw [hm]
  cases root <;>
    (rw [buildTreeF]
     simp only [checkCancelled]
     rw [if_neg (by simp)]
     rw [if_pos (by rw [hres]; exact ⟨by omega, by omega⟩)])

/-- C7: when the cancellation check answers true at the very first
consultation (before any entry has been processed), the eager generator
rejects with the cancellation error and returns no structure, the
streaming generator emits nothing beyond the start event and signals the
same cancellation error instead of an end event, and that error kind is
distinct from every other error kind of the traversal. -/
theorem c7_cancellation_before_progress (cfg : StructureConfig)
    (f : Nat → Bool) (hf : f 0 = true) (root : FSNode)
    (rootPath : List String) (d : Int) (st : GenState) (hst : st.checks = 0) :
    eagerGenerate cfg (some f) root rootPath st = Except.error GenError.cancelled ∧
    (streamGenerate cfg (some f) root rootPath d st).1
      = [StreamEvent.start (pathString rootPath)] ∧
    (streamGenerate cfg (some f) root rootPath d st).2.2 = some GenError.cancelled ∧
    GenError.cancelled ≠ GenError.gitignoreRead ∧
    GenError.cancelled ≠ GenError.dirRead := by
  obtain ⟨m, hm⟩ : ∃ m, nodeSize root = m + 1 := by
    have := nodeSize_pos root
    exact ⟨nodeSize root - 1, by omega⟩
  have hcheck : checkCancelled (some f) st
      = (true, { st with checks := st.checks + 1 }) := by
    simp [checkCancelled, hst, hf]
  refine ⟨?_, ?_, ?_, by simp, by simp⟩
  · unfold eagerGenerate
    rw [hm]
    cases root <;> (rw [buildTreeF, hcheck] <;> simp)
  · unfold streamGenerate
    rw [hm]
    have hinner : streamDirF (m + 1) cfg (some f) root rootPath [] "" 0 st
        = ([], { st with checks := st.checks + 1 }, some GenError.cancelled) := by
      cases root <;> (rw [streamDirF, hcheck] <;> simp)
    rw [hinner]
  · unfold streamGenerate
    rw [hm]
    have hinner : streamDirF (m + 1) cfg (some f) root rootPath [] "" 0 st
        = ([], { st with checks := st.checks + 1 }, some GenError.cancelled) := by
      cases root <;> (rw [streamDirF, hcheck] <;> simp)
    rw [hinner]

/-- Witness for C8: the amended statement applied to the concrete config
holding maxDepth minus two and a two-node tree. -/
theorem c8_negative_maxdepth_semantics_witness :
    (resolveConfig { maxDepth := some (-2) }).maxDepth = -2 ∧
    eagerGenerate (resolveConfig { maxDepth := some (-2) }) Option.none
        (FSNode.dir "top" Option.none true [FSNode.symlink "s" Option.none])
        ["top"] ⟨0, 0⟩ =
      Except.ok ({ name := "top", path := ["top"], kind := EntryKind.directory,
                   size := Option.none, permissions := Option.none,
                   modified := Option.none, children := some [] }, ⟨0, 0⟩) :=
  c8_negative_maxdepth_semantics { maxDepth := some (-2) } (-2) rfl (by omega)
    (FSNode.dir "top" Option.none true [FSNode.symlink "s" Option.none]) ["top"] ⟨0, 0⟩

/-- Witness for C7: the always-true cancellation oracle on a one-file
tree with the default configuration. -/
theorem c7_cancellation_before_progress_witness :
    eagerGenerate (resolveConfig {}) (some (fun _ => true))
        (FSNode.dir "r" Option.none true []) ["r"] ⟨0, 0⟩
      = Except.error GenError.cancelled :=
  (c7_cancellation_before_progress (resolveConfig {}) (fun _ => true) rfl
    (FSNode.dir "r" Option.none true []) ["r"] 0 ⟨0, 0⟩ rfl).1

/-- Claim-side comparator, following the specification text for the type
key: type-string comparison alone, with no directories-first pre-rule. -/
def specTypeOnlyCmp (a b : FileEntry) : Ordering :=
  nameCmp (kindString a.kind) (kindString b.kind)

theorem entryCmp_type_eq (a b : FileEntry) :
    entryCmp SortKey.type a b = specTypeOnlyCmp a b := by
  unfold entryCmp specTypeOnlyCmp
  cases hka : a.kind <;> cases hkb : b.kind <;>
    simp [hka, hkb, kindString] <;> decide

mutual

/-- Claim-side recursive sorter for the type key: every children list is
ordered by type-string comparison alone, at every nesting level. -/
def specSortEntryTypeAlone : FileEntry → FileEntry
  | FileEntry.mk n p k s pm m Option.none => FileEntry.mk n p k s pm m Option.none
  | FileEntry.mk n p k s pm m (some cs) =>
    FileEntry.mk n p k s pm m
      (some (stableSortBy specTypeOnlyCmp (specSortListTypeAlone cs)))

def specSortListTypeAlone : List FileEntry → List FileEntry
  | [] => []
  | e :: rest => specSortEntryTypeAlone e :: specSortListTypeAlone rest

end

/-- Claim-side recursive sort of a children list by type alone. -/
def specSortEntriesTypeAlone (cs : List FileEntry) : List FileEntry :=
  stableSortBy specTypeOnlyCmp (specSortListTypeAlone cs)

mutual

theorem sortEntry_type_alone :
    ∀ e : FileEntry, sortEntry SortKey.type e = specSortEntryTypeAlone e
  | FileEntry.mk n p k s pm m Option.none => rfl
  | FileEntry.mk n p k s pm m (some cs) => by
    rw [sortEntry, specSortEntryTypeAlone, sortList_type_alone cs,
      stableSortBy_congr _ _ entryCmp_type_eq]

theorem sortList_type_alone :
    ∀ cs : List FileEntry, sortEntryList SortKey.type cs = specSortListTypeAlone cs
  | [] => rfl
  | e :: rest => by
    rw [sortEntryList, specSortListTypeAlone, sortEntry_type_alone e,
      sortList_type_alone rest]

end

/-- The directories-first shape of one list: no directory entry occurs
after a non-directory entry. -/
def dirsFirstB : List FileEntry → Bool
  | [] => true
  | e :: rest =>
    if e.kind = EntryKind.directory then dirsFirstB rest
    else rest.all (fun x => !(x.kind = EntryKind.directory))

theorem dirsFirstB_insert (key : SortKey) (x : FileEntry) (l : List FileEntry)
    (h : dirsFirstB l = true) :
    dirsFirstB (insertCmp (entryCmp key) x l) = true := by
  induction l with
  | nil =>
    by_cases hx : x.kind = EntryKind.directory <;> simp [insertCmp, dirsFirstB, hx]
  | cons y ys ih =>
    rw [insertCmp]
    by_cases hxy : entryCmp key x y = .gt
    · rw [if_pos hxy]
      by_cases hy : y.kind = EntryKind.directory
      · rw [dirsFirstB, if_pos hy] at h ⊢
        exact ih h
      · rw [dirsFirstB, if_neg hy] at h ⊢
        have hx : x.kind ≠ EntryKind.directory := by
          intro hx
          rw [entryCmp.eq_def, if_pos ⟨hx, hy⟩] at hxy
          exact absurd hxy (by simp)
        simp only [List.all_eq_true] at h ⊢
        intro z hz
        rcases (mem_insertCmp _ _ _ _).mp hz with rfl | hz2
        · simpa using hx
        · exact h z hz2
    · rw [if_neg hxy]
      by_cases hx : x.kind = EntryKind.directory
      · rw [dirsFirstB, if_pos hx]
        exact h
      · rw [dirsFirstB, if_neg hx]
        have hy : y.kind ≠ EntryKind.directory := by
          intro hy
          rw [entryCmp.eq_def, if_neg (by tauto), if_pos ⟨hx, hy⟩] at hxy
          exact hxy rfl
        rw [dirsFirstB, if_neg hy] at h
        simp only [List.all_eq_true, List.mem_cons] at h ⊢
        rintro z (rfl | hz2)
        · simpa using hy
        · exact h z hz2

theorem dirsFirstB_stableSortBy (key : SortKey) (l : List FileEntry) :
    dirsFirstB (stableSortBy (entryCmp key) l) = true := by
  induction l with
  | nil => rfl
  | cons x xs ih => exact dirsFirstB_insert key x _ ih

mutual

/-- Every children list of the entry, at every nesting level, has the
directories-first shape. -/
def entryDirsFirst : FileEntry → Bool
  | FileEntry.mk _ _ _ _ _ _ Option.none => true
  | FileEntry.mk _ _ _ _ _ _ (some cs) => dirsFirstB cs && forestDirsFirst cs

def forestDirsFirst : List FileEntry → Bool
  | [] => true
  | e :: rest => entryDirsFirst e && forestDirsFirst rest

end

theorem forestDirsFirst_iff (cs : List FileEntry) :
    forestDirsFirst cs = true ↔ ∀ x ∈ cs, entryDirsFirst x = true := by
  induction cs with
  | nil => simp [forestDirsFirst]
  | cons e rest ih =>
    rw [forestDirsFirst]
    simp only [Bool.and_eq_true, ih, List.mem_cons]
    constructor
    · rintro ⟨h1, h2⟩ x (rfl | hx)
      · exact h1
      · exact h2 x hx
    · intro h
      exact ⟨h e (Or.inl rfl), fun x hx => h x (Or.inr hx)⟩

mutual

theorem sortEntry_dirsFirst (key : SortKey) :
    ∀ e : FileEntry, entryDirsFirst (sortEntry key e) = true
  | FileEntry.mk n p k s pm m Option.none => rfl
  | FileEntry.mk n p k s pm m (some cs) => by
    rw [sortEntry, entryDirsFirst]
    refine Bool.and_eq_true .. |>.mpr ⟨dirsFirstB_stableSortBy key _, ?_⟩
    rw [forestDirsFirst_iff]
    intro x hx
    have hx2 := (mem_stableSortBy _ _ _).mp hx
    exact sortList_dirsFirst key cs x hx2

theorem sortList_dirsFirst (key : SortKey) :
    ∀ cs : List FileEntry, ∀ x ∈ sortEntryList key cs, entryDirsFirst x = true
  | [], x, hx => absurd hx (by simp [sortEntryList])
  | e :: rest, x, hx => by
    rw [sortEntryList] at hx
    rcases List.mem_cons.mp hx with rfl | hx2
    · exact sortEntry_dirsFirst key e
    · exact sortList_dirsFirst key rest x hx2

end

theorem entryCmp_swap (key : SortKey) (a b : FileEntry) :
    entryCmp key a b = (entryCmp key b a).swap := by
  by_cases h1 : a.kind = EntryKind.directory ∧ b.kind ≠ EntryKind.directory
  · rw [entryCmp.eq_def, if_pos h1, entryCmp.eq_def,
      if_neg (by tauto), if_pos ⟨h1.2, h1.1⟩]
    rfl
  · by_cases h2 : a.kind ≠ EntryKind.directory ∧ b.kind = EntryKind.directory
    · rw [entryCmp.eq_def, if_neg h1, if_pos h2, entryCmp.eq_def,
        if_pos ⟨h2.2, h2.1⟩]
      rfl
    · rw [entryCmp.eq_def, if_neg h1, if_neg h2, entryCmp.eq_def,
        if_neg (by tauto), if_neg (by tauto)]
      cases key
      · exact nameCmp_swap _ _
      · exact intCmp_swap _ _
      · exact intCmp_swap _ _
      · exact nameCmp_swap _ _

/-- C4 counterexample: with the type key the claim asserts that the
directories-first rule is suspended so directories may interleave with
files; at this concrete two-entry input the sort still moves the
directory in front, and indeed the type strings themselves order
directory before file and before symlink, so no interleaving input can
exist. -/
theorem c4_type_key_counterexample :
    sortEntries SortKey.type
      [{ name := "a.txt", path := ["a.txt"], kind := EntryKind.file,
         size := Option.none, permissions := Option.none,
         modified := Option.none, children := Option.none },
       { name := "lib", path := ["lib"], kind := EntryKind.directory,
         size := Option.none, permissions := Option.none,
         modified := Option.none, children := Option.none }]
      = [{ name := "lib", path := ["lib"], kind := EntryKind.directory,
           size := Option.none, permissions := Option.none,
           modified := Option.none, children := Option.none },
         { name := "a.txt", path := ["a.txt"], kind := EntryKind.file,
           size := Option.none, permissions := Option.none,
           modified := Option.none, children := Option.none }] ∧
    nameCmp (kindString EntryKind.directory) (kindString EntryKind.file)
      = Ordering.lt ∧
    nameCmp (kindString EntryKind.directory) (kindString EntryKind.symlink)
      = Ordering.lt :=
  ⟨rfl, by decide, by decide⟩

/-- C4 (amended): with the type key the sort engine produces exactly the
ordering of type-string comparison alone, recursively at every level, but
since the string directory precedes file and symlink, directories still
never interleave with files (the directories-first shape holds for every
key); for every key the result is ordered by the composite
directories-first-then-key comparator, recursively at every nesting
level. -/
theorem c4_sortEntries_semantics (key : SortKey) (cs : List FileEntry) :
    (key = SortKey.type → sortEntries key cs = specSortEntriesTypeAlone cs) ∧
    dirsFirstB (sortEntries key cs) = true ∧
    forestDirsFirst (sortEntries key cs) = true ∧
    (sortEntries key cs).Chain' (fun a b => entryCmp key a b ≠ .gt) := by
  refine ⟨?_, ?_, ?_, ?_⟩
  · rintro rfl
    rw [sortEntries, specSortEntriesTypeAlone, sortList_type_alone,
      stableSortBy_congr _ _ entryCmp_type_eq]
  · exact dirsFirstB_stableSortBy key _
  · rw [forestDirsFirst_iff]
    intro x hx
    exact sortList_dirsFirst key cs x ((mem_stableSortBy _ _ _).mp hx)
  · exact chain_stableSortBy _ (swap_gt_asymm (entryCmp_swap key)) _

/-- Witness for C4: the amended statement applied to the type key and a
concrete file-directory pair. -/
theorem c4_sortEntries_semantics_witness :
    sortEntries SortKey.type
      [{ name := "z", path := ["z"], kind := EntryKind.symlink,
         size := Option.none, permissions := Option.none,
         modified := Option.none, children := Option.none },
       { name := "d", path := ["d"], kind := EntryKind.directory,
         size := Option.none, permissions := Option.none,
         modified := Option.none, children := Option.none }]
      = specSortEntriesTypeAlone
        [{ name := "z", path := ["z"], kind := EntryKind.symlink,
           size := Option.none, permissions := Option.none,
           modified := Option.none, children := Option.none },
         { name := "d", path := ["d"], kind := EntryKind.directory,
           size := Option.none, permissions := Option.none,
           modified := Option.none, children := Option.none }] :=
  (c4_sortEntries_semantics SortKey.type
    [{ name := "z", path := ["z"], kind := EntryKind.symlink,
       size := Option.none, permissions := Option.none,
       modified := Option.none, children := Option.none },
     { name := "d", path := ["d"], kind := EntryKind.directory,
       size := Option.none, permissions := Option.none,
       modified := Option.none, children := Option.none }]).1 rfl

theorem isDirB_iff_kind (n : FSNode) :
    n.isDirB = true ↔ n.kind = EntryKind.directory := by
  cases n <;> simp [FSNode.isDirB, FSNode.kind]

theorem streamAddMeta_fields (cfg : StructureConfig) (e : FileEntry)
    (st : Option Meta) :
    (streamAddMeta cfg e st).kind = e.kind ∧
    (streamAddMeta cfg e st).children = e.children ∧
    (streamAddMeta cfg e st).name = e.name ∧
    (streamAddMeta cfg e st).path = e.path := by
  unfold streamAddMeta
  split
  · exact ⟨rfl, rfl, rfl, rfl⟩
  · cases st with
    | none => exact ⟨rfl, rfl, rfl, rfl⟩
    | some m => exact ⟨rfl, rfl, rfl, rfl⟩

theorem eagerAddMeta_fields (cfg : StructureConfig) (e : FileEntry)
    (st : Option Meta) :
    (eagerAddMeta cfg e st).kind = e.kind ∧
    (eagerAddMeta cfg e st).children = e.children ∧
    (eagerAddMeta cfg e st).name = e.name ∧
    (eagerAddMeta cfg e st).path = e.path := by
  unfold eagerAddMeta
  split
  · cases st with
    | none => exact ⟨rfl, rfl, rfl, rfl⟩
    | some m => exact ⟨rfl, rfl, rfl, rfl⟩
  · exact ⟨rfl, rfl, rfl, rfl⟩

mutual

/-- An entry with a children list present is a directory, recursively:
file and symlink entries never carry children. -/
def entryLeafOk : FileEntry → Bool
  | FileEntry.mk _ _ _ _ _ _ Option.none => true
  | FileEntry.mk _ _ k _ _ _ (some cs) =>
    (k = EntryKind.directory) && forestLeafOk cs

def forestLeafOk : List FileEntry → Bool
  | [] => true
  | e :: rest => entryLeafOk e && forestLeafOk rest

end

theorem forestLeafOk_iff (cs : List FileEntry) :
    forestLeafOk cs = true ↔ ∀ x ∈ cs, entryLeafOk x = true := by
  induction cs with
  | nil => simp [forestLeafOk]
  | cons e rest ih =>
    rw [forestLeafOk]
    simp only [Bool.and_eq_true, ih, List.mem_cons]
    constructor
    · rintro ⟨h1, h2⟩ x (rfl | hx)
      · exact h1
      · exact h2 x hx
    · intro h
      exact ⟨h e (Or.inl rfl), fun x hx => h x (Or.inr hx)⟩

/-- entryLeafOk read off the projections. -/
theorem entryLeafOk_proj (e : FileEntry) :
    entryLeafOk e = true ↔
      (∀ cs, e.children = some cs →
        e.kind = EntryKind.directory ∧ forestLeafOk cs = true) := by
  obtain ⟨n, p, k, s, pm, m, ch⟩ := e
  cases ch with
  | none => simp [entryLeafOk]
  | some cs =>
    simp only [entryLeafOk, Bool.and_eq_true, decide_eq_true_eq]
    constructor
    · rintro ⟨h1, h2⟩ cs2 hcs
      cases hcs
      exact ⟨h1, h2⟩
    · intro h
      exact h cs rfl

mutual

theorem sortEntry_leafOk (key : SortKey) :
    ∀ e : FileEntry, entryLeafOk e = true → entryLeafOk (sortEntry key e) = true
  | FileEntry.mk n p k s pm m Option.none, _ => rfl
  | FileEntry.mk n p k s pm m (some cs), h => by
    rw [entryLeafOk] at h
    rw [sortEntry, entryLeafOk]
    simp only [Bool.and_eq_true] at h ⊢
    refine ⟨h.1, ?_⟩
    rw [forestLeafOk_iff]
    intro x hx
    exact sortList_leafOk key cs h.2 x ((mem_stableSortBy _ _ _).mp hx)

theorem sortList_leafOk (key : SortKey) :
    ∀ cs : List FileEntry, forestLeafOk cs = true →
      ∀ x ∈ sortEntryList key cs, entryLeafOk x = true
  | [], _, x, hx => absurd hx (by simp [sortEntryList])
  | e :: rest, h, x, hx => by
    rw [forestLeafOk] at h
    simp only [Bool.and_eq_true] at h
    rw [sortEntryList] at hx
    rcases List.mem_cons.mp hx with rfl | hx2
    · exact sortEntry_leafOk key e h.1
    · exact sortList_leafOk key rest h.2 x hx2

end

theorem sortEntries_leafOk (key : SortKey) (cs : List FileEntry)
    (h : forestLeafOk cs = true) : forestLeafOk (sortEntries key cs) = true := by
  rw [forestLeafOk_iff]
  intro x hx
  exact sortList_leafOk key cs h x ((mem_stableSortBy _ _ _).mp hx)

/-- Per-event form of the C9 invariant: a file event carries a
non-directory entry, a directory-open event a directory entry, and no
streamed entry ever has materialized children. -/
def eventEntryOk : StreamEvent → Bool
  | StreamEvent.fileEv e _ _ => (!(e.kind = EntryKind.directory)) && e.children.isNone
  | StreamEvent.dirOpen e _ _ => (e.kind = EntryKind.directory) && e.children.isNone
  | _ => true

theorem streamOne_eventsOk
    (recurse : FSNode → List String → Scope → String → Int → GenState → StreamRes)
    (cfg : StructureConfig) (parent : List String) (sc : Scope) (pre : String)
    (depth : Int) (isLast : Bool) (st : GenState) (item : FSNode)
    (hrec : ∀ ev ∈ (recurse item (parent ++ [item.nodeName]) sc
        (pre ++ (if isLast then "    " else "│   ")) (depth + 1)
        { st with processed := st.processed + 1 }).1, eventEntryOk ev = true) :
    ∀ ev ∈ (streamOne recurse cfg parent sc pre depth isLast st item).1,
      eventEntryOk ev = true := by
  intro ev hev
  rw [streamOne] at hev
  have hentry := streamAddMeta_fields cfg
    { name := item.nodeName, path := parent ++ [item.nodeName], kind := item.kind,
      size := Option.none, permissions := Option.none, modified := Option.none,
      children := Option.none } item.stat
  by_cases hdir : item.isDirB = true
  · rw [if_pos hdir] at hev
    have hopen : eventEntryOk (StreamEvent.dirOpen (streamAddMeta cfg
        { name := item.nodeName, path := parent ++ [item.nodeName],
          kind := item.kind, size := Option.none, permissions := Option.none,
          modified := Option.none, children := Option.none } item.stat) pre isLast)
        = true := by
      rw [eventEntryOk, hentry.1, hentry.2.1]
      simp [(isDirB_iff_kind item).mp hdir]
    by_cases hcomp : shouldCompressDirectory cfg item = true
    · rw [if_pos hcomp] at hev
      simp only [List.mem_append, List.mem_cons, List.nil_append] at hev
      rcases hev with hprog | rfl | hrest
      · have : ev = StreamEvent.progress
            ({ st with processed := st.processed + 1 } : GenState).processed := by
          by_cases hp : ({ st with processed := st.processed + 1 } : GenState).processed % 100 = 0
          · rw [if_pos hp] at hprog
            simpa using hprog
          · rw [if_neg hp] at hprog
            simp at hprog
        subst this
        rfl
      · exact hopen
      · rcases hrest with rfl | habs
        · rfl
        · exact absurd habs (by simp)
    · rw [if_neg hcomp] at hev
      rcases hres : recurse item (parent ++ [item.nodeName]) sc
          (pre ++ (if isLast then "    " else "│   ")) (depth + 1)
          { st with processed := st.processed + 1 } with ⟨nevs, st2, err⟩
      rw [hres] at hev
      have hnevs : ∀ x ∈ nevs, eventEntryOk x = true := by
        intro x hx
        have := hrec x
        rw [hres] at this
        exact this hx
      cases err with
      | none =>
        simp only [List.mem_append, List.mem_cons] at hev
        rcases hev with hprog | rfl | hx | rfl | habs
        · by_cases hp : ({ st with processed := st.processed + 1 } : GenState).processed % 100 = 0
          · rw [if_pos hp] at hprog
            simp at hprog
            subst hprog
            rfl
          · rw [if_neg hp] at hprog
            simp at hprog
        · exact hopen
        · exact hnevs ev hx
        · rfl
        · exact absurd habs (by simp)
      | some e =>
        simp only [List.mem_append, List.mem_cons] at hev
        rcases hev with hprog | rfl | hx
        · by_cases hp : ({ st with processed := st.processed + 1 } : GenState).processed % 100 = 0
          · rw [if_pos hp] at hprog
            simp at hprog
            subst hprog
            rfl
          · rw [if_neg hp] at hprog
            simp at hprog
        · exact hopen
        · exact hnevs ev hx
  · rw [if_neg hdir] at hev
    simp only [List.mem_append, List.mem_cons] at hev
    rcases hev with hprog | rfl | habs
    · by_cases hp : ({ st with processed := st.processed + 1 } : GenState).processed % 100 = 0
      · rw [if_pos hp] at hprog
        simp at hprog
        subst hprog
        rfl
      · rw [if_neg hp] at hprog
        simp at hprog
    · rw [eventEntryOk, hentry.1, hentry.2.1]
      have : item.kind ≠ EntryKind.directory := by
        intro hk
        exact hdir ((isDirB_iff_kind item).mpr hk)
      simp [this]
    · exact absurd habs (by simp)

theorem streamItems_eventsOk
    (recurse : FSNode → List String → Scope → String → Int → GenState → StreamRes)
    (cfg : StructureConfig) (parent : List String) (sc : Scope) (pre : String)
    (depth : Int) (total : Nat)
    (hrec : ∀ node path sc2 pre2 d2 st2,
      ∀ ev ∈ (recurse node path sc2 pre2 d2 st2).1, eventEntryOk ev = true) :
    ∀ (items : List FSNode) (idx : Nat) (st : GenState),
      ∀ ev ∈ (streamItems recurse cfg parent sc pre depth total idx st items).1,
        eventEntryOk ev = true := by
  intro items
  induction items with
  | nil =>
    intro idx st ev hev
    simp [streamItems] at hev
  | cons item rest ih =>
    intro idx st ev hev
    rw [streamItems] at hev
    rcases hone : streamOne recurse cfg parent sc pre depth (idx = total - 1) st item
      with ⟨evs, st2, err⟩
    simp only [hone] at hev
    have hevs : ∀ x ∈ evs, eventEntryOk x = true := by
      intro x hx
      have := streamOne_eventsOk recurse cfg parent sc pre depth
        (idx = total - 1) st item (fun e he => hrec _ _ _ _ _ _ e he) x
      rw [hone] at this
      exact this hx
    cases err with
    | none =>
      rcases hrest : streamItems recurse cfg parent sc pre depth total (idx + 1) st2 rest
        with ⟨revs, st3, err3⟩
      simp only [hrest] at hev
      simp only [List.mem_append] at hev
      rcases hev with hx | hx
      · exact hevs ev hx
      · have := ih (idx + 1) st2 ev
        rw [hrest] at this
        exact this hx
    | some e => exact hevs ev hev

theorem streamDirF_eventsOk :
    ∀ (f : Nat) (cfg : StructureConfig) (canc : CancelOracle) (node : FSNode)
      (selfPath : List String) (sc : Scope) (pre : String) (depth : Int)
      (st : GenState),
      ∀ ev ∈ (streamDirF f cfg canc node selfPath sc pre depth st).1,
        eventEntryOk ev = true := by
  intro f
  induction f with
  | zero =>
    intro cfg canc node selfPath sc pre depth st ev hev
    simp [streamDirF] at hev
  | succ f ih =>
    intro cfg canc node selfPath sc pre depth st ev hev
    cases node with
    | file nm s c r =>
      rw [streamDirF] at hev
      split at hev
      · simp at hev
      · split at hev
        · simp at hev
        · simp at hev
    | symlink nm s =>
      rw [streamDirF] at hev
      split at hev
      · simp at hev
      · split at hev
        · simp at hev
        · simp at hev
    | dir nm s readable kids =>
      rw [streamDirF] at hev
      split at hev
      · simp at hev
      · split at hev
        · simp at hev
        · split at hev
          · simp at hev
          · split at hev
            · simp at hev
            · exact streamItems_eventsOk _ cfg selfPath _ pre depth _
                (fun n2 p2 sc2 pre2 d2 st2 => ih cfg canc n2 p2 sc2 pre2 d2 st2)
                _ 0 _ ev hev

theorem buildItems_leafOk
    (recurse : FSNode → List String → Scope → Int → GenState → BuildRes)
    (hrec : ∀ node path sc2 d2 st2 e est2,
      recurse node path sc2 d2 st2 = Except.ok (e, est2) → entryLeafOk e = true)
    (cfg : StructureConfig) (parent : List String) (sc : Scope) (depth : Int) :
    ∀ (items : List FSNode) (st : GenState) (es : List FileEntry) (st2 : GenState),
      buildItems recurse cfg parent sc depth st items = Except.ok (es, st2) →
      forestLeafOk es = true := by
  intro items
  induction items with
  | nil =>
    intro st es st2 h
    rw [buildItems] at h
    injection h with h1
    injection h1 with h2 h3
    subst h2
    rfl
  | cons item rest ih =>
    intro st es st2 h
    rw [buildItems] at h
    have hentry := eagerAddMeta_fields cfg
      { name := item.nodeName, path := parent ++ [item.nodeName], kind := item.kind,
        size := Option.none, permissions := Option.none, modified := Option.none,
        children := Option.none } item.stat
    by_cases hdir : item.isDirB = true
    · rw [if_pos hdir] at h
      split at h
      · exact absurd h (by simp)
      · rename_i sub st3 heq
        split at h
        · exact absurd h (by simp)
        · rename_i others st4 heq2
          injection h with h1
          injection h1 with h2 h3
          subst h2
          rw [forestLeafOk]
          simp only [Bool.and_eq_true]
          constructor
          · have hsub : entryLeafOk sub = true := hrec _ _ _ _ _ _ _ heq
            rw [entryLeafOk_proj]
            intro cs hcs
            simp only [] at hcs
            have hkind : ({ eagerAddMeta cfg
                { name := item.nodeName, path := parent ++ [item.nodeName],
                  kind := item.kind, size := Option.none,
                  permissions := Option.none, modified := Option.none,
                  children := Option.none } item.stat with
                children := sub.children } : FileEntry).kind = item.kind := hentry.1
            constructor
            · rw [hkind]
              exact (isDirB_iff_kind item).mp hdir
            · have : sub.children = some cs := hcs
              exact ((entryLeafOk_proj sub).mp hsub cs this).2
          · exact ih _ _ _ heq2
    · rw [if_neg hdir] at h
      split at h
      · exact absurd h (by simp)
      · rename_i others st3 heq
        injection h with h1
        injection h1 with h2 h3
        subst h2
        rw [forestLeafOk]
        simp only [Bool.and_eq_true]
        constructor
        · rw [entryLeafOk_proj]
          intro cs hcs
          rw [hentry.2.1] at hcs
          exact absurd hcs (by simp)
        · exact ih _ _ _ heq

theorem buildTreeF_leafOk :
    ∀ (f : Nat) (cfg : StructureConfig) (canc : CancelOracle) (node : FSNode)
      (selfPath : List String) (sc : Scope) (depth : Int) (st : GenState)
      (e : FileEntry) (st2 : GenState),
      buildTreeF f cfg canc node selfPath sc depth st = Except.ok (e, st2) →
      entryLeafOk e = true := by
  intro f
  induction f with
  | zero =>
    intro cfg canc node selfPath sc depth st e st2 h
    rw [buildTreeF] at h
    injection h with h1
    injection h1 with h2 h3
    subst h2
    rfl
  | succ f ih =>
    intro cfg canc node selfPath sc depth st e st2 h
    cases node with
    | file nm s c r =>
      rw [buildTreeF] at h
      split at h
      · exact absurd h (by simp)
      · split at h
        · injection h with h1
          injection h1 with h2 h3
          subst h2
          rfl
        · exact absurd h (by simp)
    | symlink nm s =>
      rw [buildTreeF] at h
      split at h
      · exact absurd h (by simp)
      · split at h
        · injection h with h1
          injection h1 with h2 h3
          subst h2
          rfl
        · exact absurd h (by simp)
    | dir nm s readable kids =>
      rw [buildTreeF] at h
      split at h
      · exact absurd h (by simp)
      · split at h
        · injection h with h1
          injection h1 with h2 h3
          subst h2
          rfl
        · split at h
          · exact absurd h (by simp)
          · split at h
            · exact absurd h (by simp)
            · split at h
              · exact absurd h (by simp)
              · rename_i childEntries st3 heq
                injection h with h1
                injection h1 with h2 h3
                subst h2
                rw [entryLeafOk_proj]
                intro cs hcs
                constructor
                · exact (eagerAddMeta_fields cfg
                    { name := basenameOfPath selfPath, path := selfPath,
                      kind := EntryKind.directory, size := Option.none,
                      permissions := Option.none, modified := Option.none,
                      children := some [] } (FSNode.dir nm s readable kids).stat).1
                · have hforest : forestLeafOk childEntries = true :=
                    buildItems_leafOk (buildTreeF f cfg canc)
                      (fun n2 p2 sc2 d2 s2 e2 es2 hh => ih cfg canc n2 p2 sc2 d2 s2 e2 es2 hh)
                      cfg selfPath _ depth _ _ _ _ heq
                  have hcs2 : sortEntries cfg.sortBy childEntries = cs := by
                    have := hcs
                    simp only [Option.some.injEq] at this
                    exact this
                  rw [← hcs2]
                  exact sortEntries_leafOk _ _ hforest

/-- C9: in every tree the eager generator returns, a file or symlink
entry never carries children (every entry holding a children list is a
directory, recursively), and in every event sequence the streaming
generator produces, file events carry non-directory entries, only
directory entries are opened for recursion (symlinks are never opened),
and no streamed entry has materialized children. -/
theorem c9_leaf_entries (cfg : StructureConfig) (canc : CancelOracle)
    (root : FSNode) (rootPath : List String) (d : Int) (st : GenState)
    (tree : FileEntry) (st2 : GenState)
    (hok : eagerGenerate cfg canc root rootPath st = Except.ok (tree, st2)) :
    entryLeafOk tree = true ∧
    ∀ ev ∈ (streamGenerate cfg canc root rootPath d st).1, eventEntryOk ev = true := by
  constructor
  · exact buildTreeF_leafOk (nodeSize root) cfg canc root rootPath [] 0 st tree st2 hok
  · intro ev hev
    unfold streamGenerate at hev
    rcases hs : streamDirF (nodeSize root) cfg canc root rootPath [] "" 0 st
      with ⟨evs, st3, err⟩
    rw [hs] at hev
    have hin : ∀ x ∈ evs, eventEntryOk x = true := by
      intro x hx
      have := streamDirF_eventsOk (nodeSize root) cfg canc root rootPath [] "" 0 st x
      rw [hs] at this
      exact this hx
    cases err with
    | none =>
      simp only [List.mem_cons, List.mem_append, List.mem_singleton] at hev
      rcases hev with rfl | hx | rfl | habs
      · rfl
      · exact hin ev hx
      · rfl
      · exact absurd habs (by simp)
    | some e =>
      simp only [List.mem_cons] at hev
      rcases hev with rfl | hx
      · rfl
      · exact hin ev hx

/-- Witness for C9: the invariant evaluated on a concrete one-file tree
under the default configuration. -/
theorem c9_leaf_entries_witness :
    entryLeafOk
      { name := "r", path := ["r"], kind := EntryKind.directory,
        size := Option.none, permissions := Option.none, modified := Option.none,
        children := some
          [{ name := "a.txt", path := ["r", "a.txt"], kind := EntryKind.file,
             size := Option.none, permissions := Option.none,
             modified := Option.none, children := Option.none }] } = true :=
  (c9_leaf_entries (resolveConfig {}) Option.none
    (FSNode.dir "r" Option.none true [FSNode.file "a.txt" Option.none "" true])
    ["r"] 0 ⟨0, 0⟩
    { name := "r", path := ["r"], kind := EntryKind.directory,
      size := Option.none, permissions := Option.none, modified := Option.none,
      children := some
        [{ name := "a.txt", path := ["r", "a.txt"], kind := EntryKind.file,
           size := Option.none, permissions := Option.none,
           modified := Option.none, children := Option.none }] }
    ⟨1, 0⟩ (by rfl)).1

/-- Depth-indexed well-formed event forests: the grammar of event
sequences in which every directory-open is matched by exactly one
directory-close, all events of a directory lie strictly between its open
and its close, and every entry event sits at nesting depth at most the
index.  Start and end events are not generable, so a sequence in the
grammar contains neither. -/
inductive BalD : Nat → List StreamEvent → Prop where
  | nil (k : Nat) : BalD k []
  | fileSingle (k : Nat) (e : FileEntry) (pre : String) (l : Bool) :
      1 ≤ k → BalD k [StreamEvent.fileEv e pre l]
  | progSingle (k : Nat) (n : Nat) : BalD k [StreamEvent.progress n]
  | node (k : Nat) (e : FileEntry) (pre : String) (l : Bool)
      (inner : List StreamEvent) : BalD k inner →
      BalD (k + 1) (StreamEvent.dirOpen e pre l :: inner ++ [StreamEvent.dirClose])
  | append (k : Nat) (l1 l2 : List StreamEvent) :
      BalD k l1 → BalD k l2 → BalD k (l1 ++ l2)
  | mono (k k2 : Nat) (l : List StreamEvent) : BalD k l → k ≤ k2 → BalD k2 l

/-- Well-formed event forest with some depth bound. -/
def BalancedEvents (l : List StreamEvent) : Prop := ∃ k, BalD k l

theorem balD_no_start (k : Nat) (l : List StreamEvent) (h : BalD k l) :
    ∀ r, StreamEvent.start r ∉ l := by
  induction h with
  | nil => simp
  | fileSingle => simp
  | progSingle => simp
  | node k e pre lb inner hin ih =>
    intro r hr
    simp only [List.mem_cons, List.mem_append, List.mem_singleton] at hr
    rcases hr with (h1 | h2) | h3
    · exact absurd h1 (by simp)
    · exact ih r h2
    · exact absurd h3 (by simp)
  | append k l1 l2 h1 h2 ih1 ih2 =>
    intro r hr
    rcases List.mem_append.mp hr with hx | hx
    · exact ih1 r hx
    · exact ih2 r hx
  | mono k k2 l h1 hle ih => exact ih

theorem balD_no_end (k : Nat) (l : List StreamEvent) (h : BalD k l) :
    ∀ a b, StreamEvent.endEv a b ∉ l := by
  induction h with
  | nil => simp
  | fileSingle => simp
  | progSingle => simp
  | node k e pre lb inner hin ih =>
    intro a b hr
    simp only [List.mem_cons, List.mem_append, List.mem_singleton] at hr
    rcases hr with (h1 | h2) | h3
    · exact absurd h1 (by simp)
    · exact ih a b h2
    · exact absurd h3 (by simp)
  | append k l1 l2 h1 h2 ih1 ih2 =>
    intro a b hr
    rcases List.mem_append.mp hr with hx | hx
    · exact ih1 a b hx
    · exact ih2 a b hx
  | mono k k2 l h1 hle ih => exact ih

theorem streamOne_balD
    (recurse : FSNode → List String → Scope → String → Int → GenState → StreamRes)
    (k : Nat)
    (cfg : StructureConfig) (parent : List String) (sc : Scope) (pre : String)
    (depth : Int) (isLast : Bool) (st : GenState) (item : FSNode)
    (hrec : ∀ evs st3,
      recurse item (parent ++ [item.nodeName]) sc
        (pre ++ (if isLast then "    " else "│   ")) (depth + 1)
        { st with processed := st.processed + 1 } = (evs, st3, Option.none) →
      BalD k evs)
    (evs : List StreamEvent) (st2 : GenState)
    (hone : streamOne recurse cfg parent sc pre depth isLast st item
      = (evs, st2, Option.none)) :
    BalD (k + 1) evs := by
  rw [streamOne] at hone
  have hprog : BalD (k + 1)
      (if ({ st with processed := st.processed + 1 } : GenState).processed % 100 = 0
       then [StreamEvent.progress
         ({ st with processed := st.processed + 1 } : GenState).processed]
       else []) := by
    by_cases hp : ({ st with processed := st.processed + 1 } : GenState).processed % 100 = 0
    · rw [if_pos hp]
      exact BalD.progSingle _ _
    · rw [if_neg hp]
      exact BalD.nil _
  by_cases hdir : item.isDirB = true
  · rw [if_pos hdir] at hone
    by_cases hcomp : shouldCompressDirectory cfg item = true
    · rw [if_pos hcomp] at hone
      simp only [] at hone
      obtain ⟨h1, h2⟩ := Prod.mk.inj hone
      subst h1
      exact BalD.append _ _ _ hprog
        (BalD.node k _ pre isLast [] (BalD.nil k))
    · rw [if_neg hcomp] at hone
      rcases hres : recurse item (parent ++ [item.nodeName]) sc
          (pre ++ (if isLast then "    " else "│   ")) (depth + 1)
          { st with processed := st.processed + 1 } with ⟨nevs, st3, err⟩
      rw [hres] at hone
      cases err with
      | none =>
        simp only [] at hone
        obtain ⟨h1, h2⟩ := Prod.mk.inj hone
        subst h1
        exact BalD.append _ _ _ hprog (BalD.node k _ pre isLast nevs (hrec nevs st3 hres))
      | some e =>
        simp only [] at hone
        obtain ⟨h1, h2⟩ := Prod.mk.inj hone
        obtain ⟨h3, h4⟩ := Prod.mk.inj h2
        exact absurd h4 (by simp)
  · rw [if_neg hdir] at hone
    simp only [] at hone
    obtain ⟨h1, h2⟩ := Prod.mk.inj hone
    subst h1
    exact BalD.append _ _ _ hprog (BalD.fileSingle _ _ pre isLast (by omega))

theorem streamItems_balD
    (recurse : FSNode → List String → Scope → String → Int → GenState → StreamRes)
    (k : Nat)
    (cfg : StructureConfig) (parent : List String) (sc : Scope) (pre : String)
    (depth : Int) (total : Nat)
    (hrec : ∀ node path sc2 pre2 st2 evs st3,
      recurse node path sc2 pre2 (depth + 1) st2 = (evs, st3, Option.none) → BalD k evs) :
    ∀ (items : List FSNode) (idx : Nat) (st : GenState)
      (evs : List StreamEvent) (st2 : GenState),
      streamItems recurse cfg parent sc pre depth total idx st items
        = (evs, st2, Option.none) →
      BalD (k + 1) evs := by
  intro items
  induction items with
  | nil =>
    intro idx st evs st2 h
    rw [streamItems] at h
    obtain ⟨h1, h2⟩ := Prod.mk.inj h
    subst h1
    exact BalD.nil _
  | cons item rest ih =>
    intro idx st evs st2 h
    rw [streamItems] at h
    rcases hone : streamOne recurse cfg parent sc pre depth (idx = total - 1) st item
      with ⟨oevs, ost, oerr⟩
    simp only [hone] at h
    cases oerr with
    | some e =>
      obtain ⟨h1, h2⟩ := Prod.mk.inj h
      obtain ⟨h3, h4⟩ := Prod.mk.inj h2
      exact absurd h4 (by simp)
    | none =>
      rcases hrest : streamItems recurse cfg parent sc pre depth total (idx + 1) ost rest
        with ⟨revs, rst, rerr⟩
      simp only [hrest] at h
      obtain ⟨h1, h2⟩ := Prod.mk.inj h
      obtain ⟨h3, h4⟩ := Prod.mk.inj h2
      subst h1
      cases rerr with
      | some e2 => exact absurd h4 (by simp)
      | none =>
        have hb1 : BalD (k + 1) oevs :=
          streamOne_balD recurse k cfg parent sc pre depth (idx = total - 1) st item
            (fun evs2 st3 hr => hrec _ _ _ _ _ evs2 st3 hr) oevs ost hone
        have hb2 : BalD (k + 1) revs := ih (idx + 1) ost revs rst (by rw [hrest, h4])
        exact BalD.append _ _ _ hb1 hb2

theorem streamDirF_balD_fuel :
    ∀ (f : Nat) (cfg : StructureConfig) (canc : CancelOracle) (node : FSNode)
      (selfPath : List String) (sc : Scope) (pre : String) (depth : Int)
      (st : GenState) (evs : List StreamEvent) (st2 : GenState),
      streamDirF f cfg canc node selfPath sc pre depth st = (evs, st2, Option.none) →
      BalD f evs := by
  intro f
  induction f with
  | zero =>
    intro cfg canc node selfPath sc pre depth st evs st2 h
    rw [streamDirF] at h
    obtain ⟨h1, h2⟩ := Prod.mk.inj h
    subst h1
    exact BalD.nil _
  | succ f ih =>
    intro cfg canc node selfPath sc pre depth st evs st2 h
    cases node with
    | file nm s c r =>
      rw [streamDirF] at h
      split at h
      · obtain ⟨h1, h2⟩ := Prod.mk.inj h
        obtain ⟨h3, h4⟩ := Prod.mk.inj h2
        exact absurd h4 (by simp)
      · split at h <;>
          (obtain ⟨h1, h2⟩ := Prod.mk.inj h
           subst h1
           exact BalD.nil _)
    | symlink nm s =>
      rw [streamDirF] at h
      split at h
      · obtain ⟨h1, h2⟩ := Prod.mk.inj h
        obtain ⟨h3, h4⟩ := Prod.mk.inj h2
        exact absurd h4 (by simp)
      · split at h <;>
          (obtain ⟨h1, h2⟩ := Prod.mk.inj h
           subst h1
           exact BalD.nil _)
    | dir nm s readable kids =>
      rw [streamDirF] at h
      split at h
      · obtain ⟨h1, h2⟩ := Prod.mk.inj h
        obtain ⟨h3, h4⟩ := Prod.mk.inj h2
        exact absurd h4 (by simp)
      · split at h
        · obtain ⟨h1, h2⟩ := Prod.mk.inj h
          subst h1
          exact BalD.nil _
        · split at h
          · obtain ⟨h1, h2⟩ := Prod.mk.inj h
            subst h1
            exact BalD.nil _
          · split at h
            · obtain ⟨h1, h2⟩ := Prod.mk.inj h
              obtain ⟨h3, h4⟩ := Prod.mk.inj h2
              exact absurd h4 (by simp)
            · exact streamItems_balD _ f cfg selfPath _ pre depth _
                (fun n2 p2 sc2 pre2 stx evs2 st3 hr =>
                  ih cfg canc n2 p2 sc2 pre2 (depth + 1) stx evs2 st3 hr)
                _ 0 _ evs st2 h

/-- C1: for every directory shape and every configuration, when the
streaming generate runs to completion, its event sequence is well formed:
the start event is first, the end event (carrying the processed count) is
last, and the body in between lies in the balanced-event grammar - every
directory-open is matched by exactly one later directory-close with all
events of the directory's children strictly between the two - and
contains no further start or end event. -/
theorem c1_stream_events_well_formed
    (cfg : StructureConfig) (canc : CancelOracle) (root : FSNode)
    (rootPath : List String) (durationMs : Int) (st : GenState)
    (evs : List StreamEvent) (st2 : GenState)
    (h : streamGenerate cfg canc root rootPath durationMs st
      = (evs, st2, Option.none)) :
    ∃ body,
      evs = StreamEvent.start (pathString rootPath) :: body
        ++ [StreamEvent.endEv durationMs st2.processed] ∧
      BalancedEvents body ∧
      (∀ r, StreamEvent.start r ∉ body) ∧
      (∀ a b, StreamEvent.endEv a b ∉ body) := by
  rw [streamGenerate] at h
  rcases hrun : streamDirF (nodeSize root) cfg canc root rootPath [] "" 0 st
    with ⟨bevs, bst, berr⟩
  simp only [hrun] at h
  cases berr with
  | some e =>
    obtain ⟨h1, h2⟩ := Prod.mk.inj h
    obtain ⟨h3, h4⟩ := Prod.mk.inj h2
    exact absurd h4 (by simp)
  | none =>
    obtain ⟨h1, h2⟩ := Prod.mk.inj h
    obtain ⟨h3, h4⟩ := Prod.mk.inj h2
    have hb : BalD (nodeSize root) bevs :=
      streamDirF_balD_fuel (nodeSize root) cfg canc root rootPath [] "" 0 st
        bevs bst hrun
    refine ⟨bevs, ?_, ⟨nodeSize root, hb⟩,
      balD_no_start (nodeSize root) bevs hb,
      balD_no_end (nodeSize root) bevs hb⟩
    rw [← h1, ← h3]
    rfl

/-- Witness for C1: the default configuration on a one-file directory;
the run completes without error and the theorem exhibits the balanced
body between the start and end events. -/
theorem c1_stream_events_well_formed_witness :
    ∃ body,
      ([StreamEvent.start "r",
        StreamEvent.fileEv
          { name := "a.txt", path := ["r", "a.txt"], kind := EntryKind.file,
            size := Option.none, permissions := Option.none,
            modified := Option.none, children := Option.none } "" true,
        StreamEvent.endEv 5 1] : List StreamEvent)
        = StreamEvent.start (pathString ["r"]) :: body
          ++ [StreamEvent.endEv 5 (1 : Nat)] ∧
      BalancedEvents body ∧
      (∀ r, StreamEvent.start r ∉ body) ∧
      (∀ a b, StreamEvent.endEv a b ∉ body) :=
  c1_stream_events_well_formed (resolveConfig {}) Option.none
    (FSNode.dir "r" Option.none true [FSNode.file "a.txt" Option.none "" true])
    ["r"] 5 ⟨0, 0⟩
    [StreamEvent.start "r",
     StreamEvent.fileEv
       { name := "a.txt", path := ["r", "a.txt"], kind := EntryKind.file,
         size := Option.none, permissions := Option.none,
         modified := Option.none, children := Option.none } "" true,
     StreamEvent.endEv 5 1] ⟨1, 0⟩ (by rfl)

theorem streamDirF_balD_depth (cfg : StructureConfig) (n : Int)
    (hn : cfg.maxDepth = n) (hpos : 0 < n) :
    ∀ (f : Nat) (canc : CancelOracle) (node : FSNode) (selfPath : List String)
      (sc : Scope) (pre : String) (depth : Int) (st : GenState)
      (evs : List StreamEvent) (st2 : GenState),
      streamDirF f cfg canc node selfPath sc pre depth st
        = (evs, st2, Option.none) →
      BalD ((n - depth).toNat) evs := by
  intro f
  induction f with
  | zero =>
    intro canc node selfPath sc pre depth st evs st2 h
    rw [streamDirF] at h
    obtain ⟨h1, h2⟩ := Prod.mk.inj h
    subst h1
    exact BalD.nil _
  | succ f ih =>
    intro canc node selfPath sc pre depth st evs st2 h
    cases node with
    | file nm s c r =>
      rw [streamDirF] at h
      split at h
      · obtain ⟨h1, h2⟩ := Prod.mk.inj h
        obtain ⟨h3, h4⟩ := Prod.mk.inj h2
        exact absurd h4 (by simp)
      · split at h <;>
          (obtain ⟨h1, h2⟩ := Prod.mk.inj h
           subst h1
           exact BalD.nil _)
    | symlink nm s =>
      rw [streamDirF] at h
      split at h
      · obtain ⟨h1, h2⟩ := Prod.mk.inj h
        obtain ⟨h3, h4⟩ := Prod.mk.inj h2
        exact absurd h4 (by simp)
      · split at h <;>
          (obtain ⟨h1, h2⟩ := Prod.mk.inj h
           subst h1
           exact BalD.nil _)
    | dir nm s readable kids =>
      rw [streamDirF] at h
      split at h
      · obtain ⟨h1, h2⟩ := Prod.mk.inj h
        obtain ⟨h3, h4⟩ := Prod.mk.inj h2
        exact absurd h4 (by simp)
      · split at h
        · obtain ⟨h1, h2⟩ := Prod.mk.inj h
          subst h1
          exact BalD.nil _
        · rename_i hguard
          have hlt : depth < n := by
            rw [hn] at hguard
            omega
          split at h
          · obtain ⟨h1, h2⟩ := Prod.mk.inj h
            subst h1
            exact BalD.nil _
          · split at h
            · obtain ⟨h1, h2⟩ := Prod.mk.inj h
              obtain ⟨h3, h4⟩ := Prod.mk.inj h2
              exact absurd h4 (by simp)
            · have hb := streamItems_balD _ ((n - (depth + 1)).toNat) cfg selfPath
                _ pre depth _
                (fun n2 p2 sc2 pre2 stx evs2 st3 hr =>
                  ih canc n2 p2 sc2 pre2 (depth + 1) stx evs2 st3 hr)
                _ 0 _ evs st2 h
              have heq : (n - (depth + 1)).toNat + 1 = (n - depth).toNat := by
                omega
              exact heq ▸ hb


mutual

/-- Remaining-depth budget on an eager entry: with budget zero a present
children list must be empty, and with budget b+1 every child satisfies
budget b; an entry without a children list satisfies every budget. -/
def entryDepthLe : Nat → FileEntry → Bool
  | _, FileEntry.mk _ _ _ _ _ _ Option.none => true
  | 0, FileEntry.mk _ _ _ _ _ _ (some cs) => cs.isEmpty
  | b + 1, FileEntry.mk _ _ _ _ _ _ (some cs) => forestDepthLe b cs

def forestDepthLe : Nat → List FileEntry → Bool
  | _, [] => true
  | b, e :: rest => entryDepthLe b e && forestDepthLe b rest

end

theorem forestDepthLe_iff (b : Nat) (cs : List FileEntry) :
    forestDepthLe b cs = true ↔ ∀ x ∈ cs, entryDepthLe b x = true := by
  induction cs with
  | nil => simp [forestDepthLe]
  | cons e rest ih =>
    rw [forestDepthLe]
    simp only [Bool.and_eq_true, ih, List.mem_cons]
    constructor
    · rintro ⟨h1, h2⟩ x (rfl | hx)
      · exact h1
      · exact h2 x hx
    · intro h
      exact ⟨h e (Or.inl rfl), fun x hx => h x (Or.inr hx)⟩

theorem entryDepthLe_of_children_none (b : Nat) (e : FileEntry)
    (h : e.children = Option.none) : entryDepthLe b e = true := by
  obtain ⟨n, p, k, s, pm, m, ch⟩ := e
  simp only at h
  subst h
  cases b <;> rfl

theorem entryDepthLe_of_children_empty (b : Nat) (e : FileEntry)
    (h : e.children = some []) : entryDepthLe b e = true := by
  obtain ⟨n, p, k, s, pm, m, ch⟩ := e
  simp only at h
  subst h
  cases b <;> rfl

theorem entryDepthLe_congr (b : Nat) (e1 e2 : FileEntry)
    (h : e1.children = e2.children) :
    entryDepthLe b e1 = entryDepthLe b e2 := by
  obtain ⟨n1, p1, k1, s1, pm1, m1, c1⟩ := e1
  obtain ⟨n2, p2, k2, s2, pm2, m2, c2⟩ := e2
  simp only at h
  subst h
  cases b <;> cases c1 <;> rfl

theorem entryDepthLe_succ_some (b : Nat) (e : FileEntry) (cs : List FileEntry)
    (h : e.children = some cs) :
    entryDepthLe (b + 1) e = forestDepthLe b cs := by
  obtain ⟨n, p, k, s, pm, m, ch⟩ := e
  simp only at h
  subst h
  rfl

mutual

theorem sortEntry_depthLe (key : SortKey) :
    ∀ (b : Nat) (e : FileEntry), entryDepthLe b e = true →
      entryDepthLe b (sortEntry key e) = true
  | b, FileEntry.mk n p k s pm m Option.none, _ => by
    rw [sortEntry]
    cases b <;> rfl
  | 0, FileEntry.mk n p k s pm m (some cs), h => by
    rw [entryDepthLe] at h
    rw [sortEntry, entryDepthLe]
    have hcs : cs = [] := by
      cases cs with
      | nil => rfl
      | cons a t => exact absurd h (by simp)
    subst hcs
    rfl
  | b + 1, FileEntry.mk n p k s pm m (some cs), h => by
    rw [entryDepthLe] at h
    rw [sortEntry, entryDepthLe]
    rw [forestDepthLe_iff]
    intro x hx
    exact sortList_depthLe key b cs h x ((mem_stableSortBy _ _ _).mp hx)

theorem sortList_depthLe (key : SortKey) :
    ∀ (b : Nat) (cs : List FileEntry), forestDepthLe b cs = true →
      ∀ x ∈ sortEntryList key cs, entryDepthLe b x = true
  | _, [], _, x, hx => absurd hx (by simp [sortEntryList])
  | b, e :: rest, h, x, hx => by
    rw [forestDepthLe] at h
    simp only [Bool.and_eq_true] at h
    rw [sortEntryList] at hx
    rcases List.mem_cons.mp hx with rfl | hx2
    · exact sortEntry_depthLe key b e h.1
    · exact sortList_depthLe key b rest h.2 x hx2

end

theorem sortEntries_depthLe (key : SortKey) (b : Nat) (cs : List FileEntry)
    (h : forestDepthLe b cs = true) :
    forestDepthLe b (sortEntries key cs) = true := by
  rw [forestDepthLe_iff]
  intro x hx
  exact sortList_depthLe key b cs h x ((mem_stableSortBy _ _ _).mp hx)

theorem buildItems_depthLe
    (recurse : FSNode → List String → Scope → Int → GenState → BuildRes)
    (b : Nat)
    (cfg : StructureConfig) (parent : List String) (sc : Scope) (depth : Int)
    (hrec : ∀ node path st e st3,
      recurse node path sc (depth + 1) st = Except.ok (e, st3) →
      entryDepthLe b e = true) :
    ∀ (items : List FSNode) (st : GenState) (res : List FileEntry)
      (st2 : GenState),
      buildItems recurse cfg parent sc depth st items = Except.ok (res, st2) →
      forestDepthLe b res = true := by
  intro items
  induction items with
  | nil =>
    intro st res st2 h
    rw [buildItems] at h
    obtain ⟨h1, h2⟩ := Prod.mk.inj (Except.ok.inj h)
    subst h1
    rfl
  | cons item rest ih =>
    intro st res st2 h
    rw [buildItems] at h
    by_cases hdir : item.isDirB = true
    · rw [if_pos hdir] at h
      split at h
      · exact absurd h (by simp)
      · rename_i sub stx heq
        split at h
        · exact absurd h (by simp)
        · rename_i others sty heq2
          obtain ⟨h1, h2⟩ := Prod.mk.inj (Except.ok.inj h)
          subst h1
          rw [forestDepthLe]
          simp only [Bool.and_eq_true]
          refine ⟨?_, ih _ _ _ heq2⟩
          have hsub := hrec item (parent ++ [item.nodeName]) _ sub stx heq
          have hc := entryDepthLe_congr b
            { eagerAddMeta cfg
                { name := item.nodeName, path := parent ++ [item.nodeName],
                  kind := item.kind, size := Option.none,
                  permissions := Option.none, modified := Option.none,
                  children := Option.none } item.stat with
              children := sub.children } sub rfl
          rw [hc]
          exact hsub
    · rw [if_neg hdir] at h
      split at h
      · exact absurd h (by simp)
      · rename_i others sty heq2
        obtain ⟨h1, h2⟩ := Prod.mk.inj (Except.ok.inj h)
        subst h1
        rw [forestDepthLe]
        simp only [Bool.and_eq_true]
        refine ⟨?_, ih _ _ _ heq2⟩
        exact entryDepthLe_of_children_none b _
          (eagerAddMeta_fields cfg
            { name := item.nodeName, path := parent ++ [item.nodeName],
              kind := item.kind, size := Option.none,
              permissions := Option.none, modified := Option.none,
              children := Option.none } item.stat).2.1

theorem buildTreeF_depthLe (cfg : StructureConfig) (n : Int)
    (hn : cfg.maxDepth = n) (hpos : 0 < n) :
    ∀ (f : Nat) (canc : CancelOracle) (node : FSNode) (selfPath : List String)
      (sc : Scope) (depth : Int) (st : GenState) (e : FileEntry)
      (st2 : GenState),
      buildTreeF f cfg canc node selfPath sc depth st = Except.ok (e, st2) →
      entryDepthLe ((n - depth).toNat) e = true := by
  intro f
  induction f with
  | zero =>
    intro canc node selfPath sc depth st e st2 h
    rw [buildTreeF] at h
    obtain ⟨h1, h2⟩ := Prod.mk.inj (Except.ok.inj h)
    subst h1
    exact entryDepthLe_of_children_empty _ _ rfl
  | succ f ih =>
    intro canc node selfPath sc depth st e st2 h
    cases node with
    | file nm s c r =>
      rw [buildTreeF] at h
      split at h
      · exact absurd h (by simp)
      · split at h
        · obtain ⟨h1, h2⟩ := Prod.mk.inj (Except.ok.inj h)
          subst h1
          exact entryDepthLe_of_children_empty _ _ rfl
        · exact absurd h (by simp)
    | symlink nm s =>
      rw [buildTreeF] at h
      split at h
      · exact absurd h (by simp)
      · split at h
        · obtain ⟨h1, h2⟩ := Prod.mk.inj (Except.ok.inj h)
          subst h1
          exact entryDepthLe_of_children_empty _ _ rfl
        · exact absurd h (by simp)
    | dir nm s readable kids =>
      rw [buildTreeF] at h
      split at h
      · exact absurd h (by simp)
      · split at h
        · obtain ⟨h1, h2⟩ := Prod.mk.inj (Except.ok.inj h)
          subst h1
          exact entryDepthLe_of_children_empty _ _ rfl
        · rename_i hguard
          have hlt : depth < n := by
            rw [hn] at hguard
            omega
          split at h
          · exact absurd h (by simp)
          · split at h
            · exact absurd h (by simp)
            · rename_i filtered heqf
              split at h
              · exact absurd h (by simp)
              · rename_i childEntries stx heqb
                obtain ⟨h1, h2⟩ := Prod.mk.inj (Except.ok.inj h)
                subst h1
                have hm : (n - depth).toNat = (n - (depth + 1)).toNat + 1 := by
                  omega
                rw [hm, entryDepthLe_succ_some _ _ _ rfl]
                refine sortEntries_depthLe cfg.sortBy _ childEntries ?_
                exact buildItems_depthLe (buildTreeF f cfg canc)
                  ((n - (depth + 1)).toNat) cfg selfPath _ depth
                  (fun node2 path2 sty e2 st3 hr =>
                    ih canc node2 path2 _ (depth + 1) sty e2 st3 hr)
                  filtered _ childEntries stx heqb

/-- C6: for every positive maxDepth n, (eager) an entry tree returned by
generate satisfies the depth budget n - no entry lies at traversal depth
greater than n, and a directory whose children list is present at budget
zero has it empty; (eager, visibility) the walk reaching any node at
depth at least n returns the directory entry with an empty children list
rather than omitting it; (streaming) the body of a completed event
sequence lies in the balanced grammar at nesting bound n, so no entry
event occurs below depth n. -/
theorem c6_depth_limit
    (cfg : StructureConfig) (n : Int) (hn : cfg.maxDepth = n) (hpos : 0 < n) :
    (∀ (canc : CancelOracle) (root : FSNode) (rootPath : List String)
       (st : GenState) (e : FileEntry) (st2 : GenState),
       eagerGenerate cfg canc root rootPath st = Except.ok (e, st2) →
       entryDepthLe n.toNat e = true) ∧
    (∀ (f : Nat) (node : FSNode) (selfPath : List String) (sc : Scope)
       (d : Int) (st : GenState), n ≤ d →
       buildTreeF f cfg Option.none node selfPath sc d st
         = Except.ok ({ name := basenameOfPath selfPath, path := selfPath,
                        kind := EntryKind.directory, size := Option.none,
                        permissions := Option.none, modified := Option.none,
                        children := some [] }, st)) ∧
    (∀ (canc : CancelOracle) (root : FSNode) (rootPath : List String)
       (dur : Int) (st : GenState) (evs : List StreamEvent) (st2 : GenState),
       streamGenerate cfg canc root rootPath dur st = (evs, st2, Option.none) →
       ∃ body, evs = StreamEvent.start (pathString rootPath) :: body
           ++ [StreamEvent.endEv dur st2.processed] ∧
         BalD n.toNat body) := by
  refine ⟨?_, ?_, ?_⟩
  · intro canc root rootPath st e st2 h
    have := buildTreeF_depthLe cfg n hn hpos (nodeSize root) canc root rootPath
      [] 0 st e st2 h
    rwa [Int.sub_zero] at this
  · intro f node selfPath sc d st hd
    have hguard : cfg.maxDepth ≠ 0 ∧ d ≥ cfg.maxDepth := by
      rw [hn]
      omega
    cases f with
    | zero => cases node <;> rfl
    | succ f =>
      cases node <;>
        (rw [buildTreeF]
         rw [if_neg (by simp [checkCancelled]), if_pos hguard]
         rfl)
  · intro canc root rootPath dur st evs st2 h
    rw [streamGenerate] at h
    rcases hrun : streamDirF (nodeSize root) cfg canc root rootPath [] "" 0 st
      with ⟨bevs, bst, berr⟩
    simp only [hrun] at h
    cases berr with
    | some e =>
      obtain ⟨h1, h2⟩ := Prod.mk.inj h
      obtain ⟨h3, h4⟩ := Prod.mk.inj h2
      exact absurd h4 (by simp)
    | none =>
      obtain ⟨h1, h2⟩ := Prod.mk.inj h
      obtain ⟨h3, h4⟩ := Prod.mk.inj h2
      have hb := streamDirF_balD_depth cfg n hn hpos (nodeSize root) canc root
        rootPath [] "" 0 st bevs bst hrun
      rw [Int.sub_zero] at hb
      refine ⟨bevs, ?_, hb⟩
      rw [← h1, ← h3]
      rfl

/-- Witness for C6: maxDepth one on a two-level tree; the returned root
holds the depth-one directory as a childless entry and satisfies the
budget. -/
theorem c6_depth_limit_witness :
    entryDepthLe ((1 : Int)).toNat
      { name := "r", path := ["r"], kind := EntryKind.directory,
        size := Option.none, permissions := Option.none,
        modified := Option.none,
        children := some
          [{ name := "sub", path := ["r", "sub"], kind := EntryKind.directory,
             size := Option.none, permissions := Option.none,
             modified := Option.none, children := some [] }] } = true :=
  (c6_depth_limit (resolveConfig { maxDepth := some 1 }) 1 rfl (by decide)).1
    Option.none
    (FSNode.dir "r" Option.none true
      [FSNode.dir "sub" Option.none true [FSNode.file "x" Option.none "" true]])
    ["r"] ⟨0, 0⟩
    { name := "r", path := ["r"], kind := EntryKind.directory,
      size := Option.none, permissions := Option.none,
      modified := Option.none,
      children := some
        [{ name := "sub", path := ["r", "sub"], kind := EntryKind.directory,
           size := Option.none, permissions := Option.none,
           modified := Option.none, children := some [] }] }
    ⟨1, 0⟩ (by rfl)

/- ==================================================================
   C2: entries described by the two pipelines

   The formatters render the eager tree (full pre-order for the
   json/xml/csv formats, children recursion for the tree format), and
   the streaming formatter renders one line per file or directory-open
   event; the described-entry sequence of each pipeline is therefore the
   pre-order signature list of the built tree and the signature list of
   the entry-carrying events respectively.
   ================================================================== -/

abbrev Sig := String × List String × EntryKind

def sigOf (e : FileEntry) : Sig := (e.name, e.path, e.kind)

mutual

/-- Pre-order signature list of the descendants of an entry. -/
def entryPreSigs : FileEntry → List Sig
  | FileEntry.mk _ _ _ _ _ _ Option.none => []
  | FileEntry.mk _ _ _ _ _ _ (some cs) => forestPreSigs cs

/-- Pre-order signature list of a forest: each root followed by its
descendants. -/
def forestPreSigs : List FileEntry → List Sig
  | [] => []
  | e :: rest => sigOf e :: (entryPreSigs e ++ forestPreSigs rest)

end

/-- The signature an event contributes to the streamed description. -/
def eventSig : StreamEvent → Option Sig
  | StreamEvent.fileEv e _ _ => some (sigOf e)
  | StreamEvent.dirOpen e _ _ => some (sigOf e)
  | _ => Option.none

def eventSigs (evs : List StreamEvent) : List Sig :=
  evs.filterMap eventSig

theorem eventSigs_append (l1 l2 : List StreamEvent) :
    eventSigs (l1 ++ l2) = eventSigs l1 ++ eventSigs l2 :=
  List.filterMap_append l1 l2 eventSig

/-- The name-and-kind comparator both the dirent-level sort and the
entry-level sort of the name key factor through. -/
def nkCmp (a b : String × EntryKind) : Ordering :=
  if a.2 = EntryKind.directory ∧ b.2 ≠ EntryKind.directory then Ordering.lt
  else if a.2 ≠ EntryKind.directory ∧ b.2 = EntryKind.directory then Ordering.gt
  else nameCmp a.1 b.1

theorem nkCmp_swap (a b : String × EntryKind) : nkCmp a b = (nkCmp b a).swap := by
  by_cases h1 : a.2 = EntryKind.directory ∧ b.2 ≠ EntryKind.directory
  · rw [nkCmp, if_pos h1, nkCmp, if_neg (by tauto), if_pos ⟨h1.2, h1.1⟩]
    rfl
  · by_cases h2 : a.2 ≠ EntryKind.directory ∧ b.2 = EntryKind.directory
    · rw [nkCmp, if_neg h1, if_pos h2, nkCmp, if_pos ⟨h2.2, h2.1⟩]
      rfl
    · rw [nkCmp, if_neg h1, if_neg h2, nkCmp, if_neg (by tauto),
        if_neg (by tauto)]
      exact nameCmp_swap _ _

def nkOfNode (i : FSNode) : String × EntryKind := (i.nodeName, i.kind)

def nkOfEntry (e : FileEntry) : String × EntryKind := (e.name, e.kind)

theorem direntCmp_name_eq (i1 i2 : FSNode) :
    direntCmp SortKey.name i1 i2 = nkCmp (nkOfNode i1) (nkOfNode i2) := by
  cases i1 <;> cases i2 <;>
    simp [direntCmp, nkCmp, nkOfNode, FSNode.isDirB, FSNode.kind, FSNode.nodeName]

theorem entryCmp_name_eq (e1 e2 : FileEntry) :
    entryCmp SortKey.name e1 e2 = nkCmp (nkOfEntry e1) (nkOfEntry e2) := by
  rw [entryCmp.eq_def, nkCmp, nkOfEntry, nkOfEntry]

/-- Executable adjacent-non-gt chain check. -/
def chainNonGtB (cmp : α → α → Ordering) : List α → Bool
  | a :: b :: t => (!(cmp a b = Ordering.gt)) && chainNonGtB cmp (b :: t)
  | _ => true

theorem chainNonGtB_iff (cmp : α → α → Ordering) :
    ∀ l : List α,
      chainNonGtB cmp l = true ↔ l.Chain' (fun a b => cmp a b ≠ .gt)
  | [] => by simp [chainNonGtB]
  | [a] => by simp [chainNonGtB]
  | a :: b :: t => by
    rw [chainNonGtB]
    simp only [Bool.and_eq_true, Bool.not_eq_true', decide_eq_false_iff_not,
      List.chain'_cons, chainNonGtB_iff cmp (b :: t)]

theorem chainNonGtB_congr (cmp cmp' : α → α → Ordering)
    (h : ∀ a b, cmp a b = cmp' a b) :
    ∀ l : List α, chainNonGtB cmp l = chainNonGtB cmp' l
  | [] => rfl
  | [_] => rfl
  | a :: b :: t => by
    rw [chainNonGtB, chainNonGtB, h a b, chainNonGtB_congr cmp cmp' h (b :: t)]

theorem chainNonGtB_map (c : β → β → Ordering) (g : α → β) :
    ∀ l : List α,
      chainNonGtB (fun a b => c (g a) (g b)) l = chainNonGtB c (l.map g)
  | [] => rfl
  | [_] => rfl
  | a :: b :: t => by
    rw [chainNonGtB, List.map, List.map, chainNonGtB,
      ← List.map, chainNonGtB_map c g (b :: t)]

mutual

/-- Every children list in the entry is adjacent-non-gt for the key
comparator, recursively: exactly the trees on which the final recursive
sort of the eager builder is the identity. -/
def entrySortedB (key : SortKey) : FileEntry → Bool
  | FileEntry.mk _ _ _ _ _ _ Option.none => true
  | FileEntry.mk _ _ _ _ _ _ (some cs) =>
    chainNonGtB (entryCmp key) cs && forestSortedB key cs

def forestSortedB (key : SortKey) : List FileEntry → Bool
  | [] => true
  | e :: rest => entrySortedB key e && forestSortedB key rest

end

theorem entrySortedB_congr (key : SortKey) (e1 e2 : FileEntry)
    (h : e1.children = e2.children) :
    entrySortedB key e1 = entrySortedB key e2 := by
  obtain ⟨n1, p1, k1, s1, pm1, m1, c1⟩ := e1
  obtain ⟨n2, p2, k2, s2, pm2, m2, c2⟩ := e2
  simp only at h
  subst h
  cases c1 <;> rfl

theorem entrySortedB_of_children_none (key : SortKey) (e : FileEntry)
    (h : e.children = Option.none) : entrySortedB key e = true := by
  obtain ⟨n, p, k, s, pm, m, ch⟩ := e
  simp only at h
  subst h
  rfl

theorem entryPreSigs_congr (e1 e2 : FileEntry)
    (h : e1.children = e2.children) : entryPreSigs e1 = entryPreSigs e2 := by
  obtain ⟨n1, p1, k1, s1, pm1, m1, c1⟩ := e1
  obtain ⟨n2, p2, k2, s2, pm2, m2, c2⟩ := e2
  simp only at h
  subst h
  cases c1 <;> rfl

theorem entryPreSigs_of_children_none (e : FileEntry)
    (h : e.children = Option.none) : entryPreSigs e = [] := by
  obtain ⟨n, p, k, s, pm, m, ch⟩ := e
  simp only at h
  subst h
  rfl

theorem entryPreSigs_of_children_some (e : FileEntry) (cs : List FileEntry)
    (h : e.children = some cs) : entryPreSigs e = forestPreSigs cs := by
  obtain ⟨n, p, k, s, pm, m, ch⟩ := e
  simp only at h
  subst h
  rfl

theorem entrySortedB_of_children_some (key : SortKey) (e : FileEntry)
    (cs : List FileEntry) (h : e.children = some cs) :
    entrySortedB key e
      = (chainNonGtB (entryCmp key) cs && forestSortedB key cs) := by
  obtain ⟨n, p, m, s, pm, mm, ch⟩ := e
  simp only at h
  subst h
  rfl

mutual

theorem sortEntry_id (key : SortKey) :
    ∀ e : FileEntry, entrySortedB key e = true → sortEntry key e = e
  | FileEntry.mk n p k s pm m Option.none, _ => by rw [sortEntry]
  | FileEntry.mk n p k s pm m (some cs), h => by
    rw [entrySortedB] at h
    simp only [Bool.and_eq_true] at h
    rw [sortEntry, sortList_id key cs h.2,
      stableSortBy_of_chain _ _ ((chainNonGtB_iff _ _).mp h.1)]

theorem sortList_id (key : SortKey) :
    ∀ cs : List FileEntry, forestSortedB key cs = true → sortEntryList key cs = cs
  | [], _ => rfl
  | e :: rest, h => by
    rw [forestSortedB] at h
    simp only [Bool.and_eq_true] at h
    rw [sortEntryList, sortEntry_id key e h.1, sortList_id key rest h.2]

end

theorem sortEntries_id (key : SortKey) (cs : List FileEntry)
    (hc : chainNonGtB (entryCmp key) cs = true)
    (hf : forestSortedB key cs = true) : sortEntries key cs = cs := by
  rw [sortEntries, sortList_id key cs hf,
    stableSortBy_of_chain _ _ ((chainNonGtB_iff _ _).mp hc)]

theorem eventSigs_progress (c : Prop) [Decidable c] (m : Nat) :
    eventSigs (if c then [StreamEvent.progress m] else []) = [] := by
  split <;> rfl

theorem sigOf_streamAddMeta (cfg : StructureConfig) (e : FileEntry)
    (st : Option Meta) : sigOf (streamAddMeta cfg e st) = sigOf e := by
  have h := streamAddMeta_fields cfg e st
  rw [sigOf, sigOf, h.1, h.2.2.1, h.2.2.2]

theorem sigOf_eagerAddMeta (cfg : StructureConfig) (e : FileEntry)
    (st : Option Meta) : sigOf (eagerAddMeta cfg e st) = sigOf e := by
  have h := eagerAddMeta_fields cfg e st
  rw [sigOf, sigOf, h.1, h.2.2.1, h.2.2.2]

theorem sigOf_setChildren (e : FileEntry) (ch : Option (List FileEntry)) :
    sigOf { e with children := ch } = sigOf e := rfl

theorem nkOfEntry_of_sigOf (e1 e2 : FileEntry) (h : sigOf e1 = sigOf e2) :
    nkOfEntry e1 = nkOfEntry e2 := by
  rw [sigOf, sigOf] at h
  obtain ⟨h1, h2⟩ := Prod.mk.inj h
  obtain ⟨h3, h4⟩ := Prod.mk.inj h2
  rw [nkOfEntry, nkOfEntry, h1, h4]

theorem shouldCompress_false (cfg : StructureConfig)
    (hcomp : cfg.compressLargeDirs = false) (item : FSNode) :
    shouldCompressDirectory cfg item = false := by
  cases item <;> simp [shouldCompressDirectory, hcomp]


theorem filterMap_eventSig_progress (c : Prop) [Decidable c] (m : Nat) :
    List.filterMap eventSig (if c then [StreamEvent.progress m] else []) = [] := by
  split <;> rfl

theorem streamOne_sigs
    (recS : FSNode → List String → Scope → String → Int → GenState → StreamRes)
    (cfg : StructureConfig) (hcomp : cfg.compressLargeDirs = false)
    (parent : List String) (sc : Scope) (pre : String) (depth : Int)
    (isLast : Bool) (st : GenState) (item : FSNode)
    (oevs : List StreamEvent) (ost : GenState)
    (hone : streamOne recS cfg parent sc pre depth isLast st item
      = (oevs, ost, Option.none)) :
    (item.isDirB = true →
      ∃ nevs nst, recS item (parent ++ [item.nodeName]) sc
          (pre ++ (if isLast then "    " else "│   ")) (depth + 1)
          { st with processed := st.processed + 1 } = (nevs, nst, Option.none) ∧
        eventSigs oevs
          = (item.nodeName, parent ++ [item.nodeName], item.kind)
            :: eventSigs nevs) ∧
    (item.isDirB = false →
      eventSigs oevs
        = [(item.nodeName, parent ++ [item.nodeName], item.kind)]) := by
  rw [streamOne] at hone
  by_cases hdir : item.isDirB = true
  · rw [if_pos hdir] at hone
    rw [if_neg (show ¬(shouldCompressDirectory cfg item = true) by
      simp [shouldCompress_false cfg hcomp item])] at hone
    rcases hres : recS item (parent ++ [item.nodeName]) sc
        (pre ++ (if isLast then "    " else "│   ")) (depth + 1)
        { st with processed := st.processed + 1 } with ⟨nevs, nst, err⟩
    rw [hres] at hone
    cases err with
    | some e =>
      simp only [] at hone
      obtain ⟨h1, h2⟩ := Prod.mk.inj hone
      obtain ⟨h3, h4⟩ := Prod.mk.inj h2
      exact absurd h4 (by simp)
    | none =>
      simp only [] at hone
      obtain ⟨h1, h2⟩ := Prod.mk.inj hone
      refine ⟨fun _ => ⟨nevs, nst, rfl, ?_⟩,
        fun hf => absurd hdir (by simp [hf])⟩
      rw [← h1, eventSigs, List.filterMap_append, filterMap_eventSig_progress]
      rw [show List.filterMap eventSig
          (StreamEvent.dirOpen (streamAddMeta cfg
            { name := item.nodeName, path := parent ++ [item.nodeName],
              kind := item.kind, size := Option.none,
              permissions := Option.none, modified := Option.none,
              children := Option.none } item.stat) pre isLast
            :: (nevs ++ [StreamEvent.dirClose]))
          = sigOf (streamAddMeta cfg
            { name := item.nodeName, path := parent ++ [item.nodeName],
              kind := item.kind, size := Option.none,
              permissions := Option.none, modified := Option.none,
              children := Option.none } item.stat)
            :: List.filterMap eventSig (nevs ++ [StreamEvent.dirClose])
        from rfl]
      rw [sigOf_streamAddMeta]
      rw [List.filterMap_append]
      simp only [List.nil_append]
      rw [show List.filterMap eventSig [StreamEvent.dirClose] = [] from rfl,
        List.append_nil]
      rfl
  · rw [if_neg hdir] at hone
    simp only [] at hone
    obtain ⟨h1, h2⟩ := Prod.mk.inj hone
    refine ⟨fun ht => absurd ht hdir, fun _ => ?_⟩
    rw [← h1, eventSigs, List.filterMap_append, filterMap_eventSig_progress]
    rw [show List.filterMap eventSig
        [StreamEvent.fileEv (streamAddMeta cfg
          { name := item.nodeName, path := parent ++ [item.nodeName],
            kind := item.kind, size := Option.none,
            permissions := Option.none, modified := Option.none,
            children := Option.none } item.stat) pre isLast]
        = [sigOf (streamAddMeta cfg
          { name := item.nodeName, path := parent ++ [item.nodeName],
            kind := item.kind, size := Option.none,
            permissions := Option.none, modified := Option.none,
            children := Option.none } item.stat)] from rfl]
    rw [sigOf_streamAddMeta]
    rfl


theorem nkOfEntry_setChildren (e : FileEntry) (ch : Option (List FileEntry)) :
    nkOfEntry { e with children := ch } = nkOfEntry e := rfl

theorem nkOfEntry_eagerAddMeta (cfg : StructureConfig) (e : FileEntry)
    (stt : Option Meta) : nkOfEntry (eagerAddMeta cfg e stt) = nkOfEntry e := by
  have h := eagerAddMeta_fields cfg e stt
  rw [nkOfEntry, nkOfEntry, h.1, h.2.2.1]

theorem entryPreSigs_setChildren (e x : FileEntry) :
    entryPreSigs { e with children := x.children } = entryPreSigs x :=
  entryPreSigs_congr _ _ rfl

theorem entrySortedB_setChildren (key : SortKey) (e x : FileEntry) :
    entrySortedB key { e with children := x.children } = entrySortedB key x :=
  entrySortedB_congr key _ _ rfl

theorem forestPreSigs_cons_dir (cfg : StructureConfig) (nm : String)
    (pth : List String) (k : EntryKind) (stt : Option Meta)
    (sub : FileEntry) (others : List FileEntry) :
    forestPreSigs
      ({ eagerAddMeta cfg
          { name := nm, path := pth, kind := k, size := Option.none,
            permissions := Option.none, modified := Option.none,
            children := Option.none } stt with children := sub.children }
        :: others)
      = (nm, pth, k) :: (entryPreSigs sub ++ forestPreSigs others) := by
  rw [forestPreSigs, sigOf_setChildren, sigOf_eagerAddMeta,
    entryPreSigs_setChildren]
  rfl

theorem forestPreSigs_cons_file (cfg : StructureConfig) (nm : String)
    (pth : List String) (k : EntryKind) (stt : Option Meta)
    (others : List FileEntry) :
    forestPreSigs
      (eagerAddMeta cfg
        { name := nm, path := pth, kind := k, size := Option.none,
          permissions := Option.none, modified := Option.none,
          children := Option.none } stt :: others)
      = (nm, pth, k) :: forestPreSigs others := by
  rw [forestPreSigs, sigOf_eagerAddMeta,
    entryPreSigs_of_children_none _
      (eagerAddMeta_fields cfg
        { name := nm, path := pth, kind := k, size := Option.none,
          permissions := Option.none, modified := Option.none,
          children := Option.none } stt).2.1,
    List.nil_append]
  rfl

theorem items_lockstep
    (recE : FSNode → List String → Scope → Int → GenState → BuildRes)
    (recS : FSNode → List String → Scope → String → Int → GenState → StreamRes)
    (cfg : StructureConfig) (hcomp : cfg.compressLargeDirs = false)
    (parent : List String) (sc : Scope) (depth : Int) (total : Nat)
    (hrec : ∀ node path pre2 stE stS e st2 evs st2x,
      recE node path sc (depth + 1) stE = Except.ok (e, st2) →
      recS node path sc pre2 (depth + 1) stS = (evs, st2x, Option.none) →
      eventSigs evs = entryPreSigs e ∧ entrySortedB SortKey.name e = true) :
    ∀ (items : List FSNode) (pre : String) (idx : Nat) (st st' : GenState)
      (res : List FileEntry) (st2 : GenState) (evs : List StreamEvent)
      (st2x : GenState),
      buildItems recE cfg parent sc depth st items = Except.ok (res, st2) →
      streamItems recS cfg parent sc pre depth total idx st' items
        = (evs, st2x, Option.none) →
      eventSigs evs = forestPreSigs res ∧
      forestSortedB SortKey.name res = true ∧
      res.map nkOfEntry = items.map nkOfNode := by
  intro items
  induction items with
  | nil =>
    intro pre idx st st' res st2 evs st2x hE hS
    rw [buildItems] at hE
    rw [streamItems] at hS
    obtain ⟨h1, h2⟩ := Prod.mk.inj (Except.ok.inj hE)
    obtain ⟨h3, h4⟩ := Prod.mk.inj hS
    subst h1
    subst h3
    exact ⟨rfl, rfl, rfl⟩
  | cons item rest ih =>
    intro pre idx st st' res st2 evs st2x hE hS
    rw [buildItems] at hE
    rw [streamItems] at hS
    rcases hone : streamOne recS cfg parent sc pre depth (idx = total - 1) st' item
      with ⟨oevs, ost, oerr⟩
    simp only [hone] at hS
    cases oerr with
    | some e0 =>
      obtain ⟨h1, h2⟩ := Prod.mk.inj hS
      obtain ⟨h3, h4⟩ := Prod.mk.inj h2
      exact absurd h4 (by simp)
    | none =>
      rcases hrest : streamItems recS cfg parent sc pre depth total (idx + 1) ost rest
        with ⟨revs, rst, rerr⟩
      simp only [hrest] at hS
      obtain ⟨h1, h2⟩ := Prod.mk.inj hS
      obtain ⟨h3, h4⟩ := Prod.mk.inj h2
      subst h1
      cases rerr with
      | some e2 => exact absurd h4 (by simp)
      | none =>
        have hshape := streamOne_sigs recS cfg hcomp parent sc pre depth _ st'
          item oevs ost hone
        by_cases hdir : item.isDirB = true
        · rw [if_pos hdir] at hE
          split at hE
          · exact absurd hE (by simp)
          · rename_i sub stE heqE
            split at hE
            · exact absurd hE (by simp)
            · rename_i others stE2 heqE2
              obtain ⟨h5, h6⟩ := Prod.mk.inj (Except.ok.inj hE)
              subst h5
              obtain ⟨nevs, nst, hres, hsig⟩ := hshape.1 hdir
              have hsub := hrec item (parent ++ [item.nodeName]) _ _ _ sub stE
                nevs nst heqE hres
              have hrest2 := ih pre (idx + 1) _ ost others stE2 revs rst heqE2 hrest
              refine ⟨?_, ?_, ?_⟩
              · rw [eventSigs_append, hsig, hsub.1, hrest2.1,
                  forestPreSigs_cons_dir, List.cons_append]
              · rw [forestSortedB]
                simp only [Bool.and_eq_true]
                refine ⟨?_, hrest2.2.1⟩
                rw [entrySortedB_setChildren SortKey.name _ sub]
                exact hsub.2
              · rw [List.map, List.map, nkOfEntry_setChildren,
                  nkOfEntry_eagerAddMeta, hrest2.2.2]
                rfl
        · rw [if_neg hdir] at hE
          split at hE
          · exact absurd hE (by simp)
          · rename_i others stE2 heqE2
            obtain ⟨h5, h6⟩ := Prod.mk.inj (Except.ok.inj hE)
            subst h5
            have hone2 := hshape.2 (by simp at hdir; exact hdir)
            have hrest2 := ih pre (idx + 1) _ ost others stE2 revs rst heqE2 hrest
            refine ⟨?_, ?_, ?_⟩
            · rw [eventSigs_append, hone2, hrest2.1, forestPreSigs_cons_file,
                List.cons_append, List.nil_append]
            · rw [forestSortedB]
              simp only [Bool.and_eq_true]
              refine ⟨?_, hrest2.2.1⟩
              exact entrySortedB_of_children_none SortKey.name _
                (eagerAddMeta_fields cfg
                  { name := item.nodeName,
                    path := parent ++ [item.nodeName], kind := item.kind,
                    size := Option.none, permissions := Option.none,
                    modified := Option.none,
                    children := Option.none } item.stat).2.1
            · rw [List.map, List.map, nkOfEntry_eagerAddMeta, hrest2.2.2]
              rfl

theorem filterAndSort_chain (cfg : StructureConfig)
    (hname : cfg.sortBy = SortKey.name) (sc : Scope) (parent : List String)
    (items : List FSNode) (l : List FSNode)
    (h : filterAndSort cfg sc parent items = Except.ok l) :
    chainNonGtB (direntCmp SortKey.name) l = true := by
  rw [filterAndSort] at h
  split at h
  · exact absurd h (by simp)
  · rename_i orules heq
    have hl := Except.ok.inj h
    rw [← hl, hname]
    refine (chainNonGtB_iff _ _).mpr (chain_stableSortBy _ ?_ _)
    refine swap_gt_asymm (fun a b => ?_)
    rw [direntCmp_name_eq, direntCmp_name_eq, nkCmp_swap]


theorem dir_lockstep (cfg : StructureConfig)
    (hname : cfg.sortBy = SortKey.name) (hcomp : cfg.compressLargeDirs = false) :
    ∀ (f : Nat) (node : FSNode) (selfPath : List String) (sc : Scope)
      (pre : String) (depth : Int) (st st' : GenState) (e : FileEntry)
      (st2 : GenState) (evs : List StreamEvent) (st2x : GenState),
      buildTreeF f cfg Option.none node selfPath sc depth st
        = Except.ok (e, st2) →
      streamDirF f cfg Option.none node selfPath sc pre depth st'
        = (evs, st2x, Option.none) →
      eventSigs evs = entryPreSigs e ∧ entrySortedB SortKey.name e = true := by
  intro f
  induction f with
  | zero =>
    intro node selfPath sc pre depth st st' e st2 evs st2x hE hS
    rw [buildTreeF] at hE
    rw [streamDirF] at hS
    obtain ⟨h1, h2⟩ := Prod.mk.inj (Except.ok.inj hE)
    obtain ⟨h3, h4⟩ := Prod.mk.inj hS
    subst h1
    subst h3
    exact ⟨rfl, rfl⟩
  | succ f ih =>
    intro node selfPath sc pre depth st st' e st2 evs st2x hE hS
    have hcS : ¬((checkCancelled (Option.none : CancelOracle) st').1 = true) := by
      simp [checkCancelled]
    cases node with
    | file nm s c r =>
      rw [buildTreeF] at hE
      rw [streamDirF] at hS
      rw [if_neg hcS] at hS
      split at hE
      · exact absurd hE (by simp)
      · split at hE
        · rename_i hgt
          obtain ⟨h1, h2⟩ := Prod.mk.inj (Except.ok.inj hE)
          subst h1
          rw [if_pos hgt] at hS
          obtain ⟨h3, h4⟩ := Prod.mk.inj hS
          subst h3
          exact ⟨rfl, rfl⟩
        · exact absurd hE (by simp)
    | symlink nm s =>
      rw [buildTreeF] at hE
      rw [streamDirF] at hS
      rw [if_neg hcS] at hS
      split at hE
      · exact absurd hE (by simp)
      · split at hE
        · rename_i hgt
          obtain ⟨h1, h2⟩ := Prod.mk.inj (Except.ok.inj hE)
          subst h1
          rw [if_pos hgt] at hS
          obtain ⟨h3, h4⟩ := Prod.mk.inj hS
          subst h3
          exact ⟨rfl, rfl⟩
        · exact absurd hE (by simp)
    | dir nm s readable kids =>
      rw [buildTreeF] at hE
      rw [streamDirF] at hS
      rw [if_neg hcS] at hS
      split at hE
      · exact absurd hE (by simp)
      · split at hE
        · rename_i hgt
          obtain ⟨h1, h2⟩ := Prod.mk.inj (Except.ok.inj hE)
          subst h1
          rw [if_pos hgt] at hS
          obtain ⟨h3, h4⟩ := Prod.mk.inj hS
          subst h3
          exact ⟨rfl, rfl⟩
        · rename_i hglt
          rw [if_neg hglt] at hS
          split at hE
          · exact absurd hE (by simp)
          · rename_i hread
            rw [if_neg hread] at hS
            split at hE
            · exact absurd hE (by simp)
            · rename_i filtered heqf
              simp only [heqf] at hS
              split at hE
              · exact absurd hE (by simp)
              · rename_i childEntries stE heqb
                obtain ⟨h1, h2⟩ := Prod.mk.inj (Except.ok.inj hE)
                subst h1
                have hlock := items_lockstep (buildTreeF f cfg Option.none)
                  (streamDirF f cfg Option.none) cfg hcomp selfPath
                  ((selfPath, kids) :: sc) depth filtered.length
                  (fun n2 p2 pre2 stE2 stS2 e2 st22 evs2 st2x2 hEr hSr =>
                    ih n2 p2 _ pre2 (depth + 1) stE2 stS2 e2 st22 evs2
                      st2x2 hEr hSr)
                  filtered pre 0 _ _ childEntries stE evs st2x heqb hS
                have hchainE :
                    chainNonGtB (entryCmp SortKey.name) childEntries = true := by
                  rw [chainNonGtB_congr (entryCmp SortKey.name)
                    (fun a b => nkCmp (nkOfEntry a) (nkOfEntry b))
                    entryCmp_name_eq childEntries]
                  rw [chainNonGtB_map nkCmp nkOfEntry childEntries]
                  rw [hlock.2.2]
                  rw [← chainNonGtB_map nkCmp nkOfNode filtered]
                  rw [← chainNonGtB_congr (direntCmp SortKey.name)
                    (fun a b => nkCmp (nkOfNode a) (nkOfNode b))
                    direntCmp_name_eq filtered]
                  exact filterAndSort_chain cfg hname _ _ _ _ heqf
                have hid : sortEntries SortKey.name childEntries
                    = childEntries :=
                  sortEntries_id SortKey.name childEntries hchainE hlock.2.1
                constructor
                · rw [entryPreSigs_of_children_some _
                    (sortEntries cfg.sortBy childEntries) rfl]
                  rw [hname, hid]
                  exact hlock.1
                · rw [entrySortedB_of_children_some SortKey.name _
                    (sortEntries cfg.sortBy childEntries) rfl]
                  rw [hname, hid]
                  simp only [Bool.and_eq_true]
                  exact ⟨hchainE, hlock.2.1⟩

/-- The configuration of the C2 counterexample: size ordering with sizes
recorded. -/
def szCfg : StructureConfig :=
  resolveConfig { sortBy := some SortKey.size, includeSize := some true }

/-- Two files whose enumeration order is ascending in size. -/
def szTree : FSNode :=
  FSNode.dir "r" Option.none true
    [FSNode.file "a" (some ⟨1, 0, 0⟩) "" true,
     FSNode.file "b" (some ⟨2, 0, 0⟩) "" true]

/-- C2 counterexample: under the size key the eager pipeline re-sorts the
final entry tree descending by size, while the streaming pipeline emits
the enumeration order (its dirent-level sort only acts for the name key),
so the two outputs describe the same entries in different orders. -/
theorem c2_size_order_counterexample :
    eagerGenerate szCfg Option.none szTree ["r"] ⟨0, 0⟩
      = Except.ok
        ({ name := "r", path := ["r"], kind := EntryKind.directory,
           size := Option.none, permissions := Option.none,
           modified := Option.none,
           children := some
             [{ name := "b", path := ["r", "b"], kind := EntryKind.file,
                size := some 2, permissions := Option.none,
                modified := Option.none, children := Option.none },
              { name := "a", path := ["r", "a"], kind := EntryKind.file,
                size := some 1, permissions := Option.none,
                modified := Option.none, children := Option.none }]}, ⟨2, 0⟩) ∧
    entryPreSigs
      { name := "r", path := ["r"], kind := EntryKind.directory,
        size := Option.none, permissions := Option.none,
        modified := Option.none,
        children := some
          [{ name := "b", path := ["r", "b"], kind := EntryKind.file,
             size := some 2, permissions := Option.none,
             modified := Option.none, children := Option.none },
           { name := "a", path := ["r", "a"], kind := EntryKind.file,
             size := some 1, permissions := Option.none,
             modified := Option.none, children := Option.none }]}
      = [("b", ["r", "b"], EntryKind.file), ("a", ["r", "a"], EntryKind.file)] ∧
    (streamGenerate szCfg Option.none szTree ["r"] 0 ⟨0, 0⟩).1
      = [StreamEvent.start "r",
         StreamEvent.fileEv
           { name := "a", path := ["r", "a"], kind := EntryKind.file,
             size := some 1, permissions := Option.none,
             modified := Option.none, children := Option.none } "" false,
         StreamEvent.fileEv
           { name := "b", path := ["r", "b"], kind := EntryKind.file,
             size := some 2, permissions := Option.none,
             modified := Option.none, children := Option.none } "" true,
         StreamEvent.endEv 0 2] ∧
    eventSigs
      [StreamEvent.start "r",
       StreamEvent.fileEv
         { name := "a", path := ["r", "a"], kind := EntryKind.file,
           size := some 1, permissions := Option.none,
           modified := Option.none, children := Option.none } "" false,
       StreamEvent.fileEv
         { name := "b", path := ["r", "b"], kind := EntryKind.file,
           size := some 2, permissions := Option.none,
           modified := Option.none, children := Option.none } "" true,
       StreamEvent.endEv 0 2]
      = [("a", ["r", "a"], EntryKind.file), ("b", ["r", "b"], EntryKind.file)] :=
  ⟨rfl, rfl, rfl, rfl⟩

/-- C2 (amended): under the name sort key with directory compression off,
a successful eager run and a successful streaming run on the same tree
describe the same entries in the same order - the signature sequence of
the file and directory-open events equals the pre-order signature listing
of the built tree that every eager formatter renders. -/
theorem c2_eager_stream_described_entries
    (cfg : StructureConfig) (hname : cfg.sortBy = SortKey.name)
    (hcomp : cfg.compressLargeDirs = false)
    (root : FSNode) (rootPath : List String) (dur : Int) (stE stS : GenState)
    (e : FileEntry) (st2 : GenState) (evs : List StreamEvent) (st2x : GenState)
    (hE : eagerGenerate cfg Option.none root rootPath stE = Except.ok (e, st2))
    (hS : streamGenerate cfg Option.none root rootPath dur stS
        = (evs, st2x, Option.none)) :
    eventSigs evs = entryPreSigs e := by
  rw [eagerGenerate] at hE
  rw [streamGenerate] at hS
  rcases hrun : streamDirF (nodeSize root) cfg Option.none root rootPath [] "" 0 stS
    with ⟨bevs, bst, berr⟩
  simp only [hrun] at hS
  cases berr with
  | some e2 =>
    obtain ⟨h1, h2⟩ := Prod.mk.inj hS
    obtain ⟨h3, h4⟩ := Prod.mk.inj h2
    exact absurd h4 (by simp)
  | none =>
    obtain ⟨h1, h2⟩ := Prod.mk.inj hS
    obtain ⟨h3, h4⟩ := Prod.mk.inj h2
    rw [← h1]
    have hbody := (dir_lockstep cfg hname hcomp (nodeSize root) root rootPath []
      "" 0 stE stS e st2 bevs bst hE hrun).1
    rw [show eventSigs (StreamEvent.start (pathString rootPath) ::
        (bevs ++ [StreamEvent.endEv dur bst.processed]))
        = eventSigs (bevs ++ [StreamEvent.endEv dur bst.processed]) from rfl,
      eventSigs_append,
      show eventSigs [StreamEvent.endEv dur bst.processed] = [] from rfl,
      List.append_nil]
    exact hbody

/-- Witness for C2: the default name ordering with compression off on a
one-file tree; both pipelines describe exactly the single file entry. -/
theorem c2_eager_stream_described_entries_witness :
    eventSigs
      [StreamEvent.start "r",
       StreamEvent.fileEv
         { name := "a.txt", path := ["r", "a.txt"], kind := EntryKind.file,
           size := Option.none, permissions := Option.none,
           modified := Option.none, children := Option.none } "" true,
       StreamEvent.endEv 5 1]
      = entryPreSigs
        { name := "r", path := ["r"], kind := EntryKind.directory,
          size := Option.none, permissions := Option.none,
          modified := Option.none,
          children := some
            [{ name := "a.txt", path := ["r", "a.txt"],
               kind := EntryKind.file, size := Option.none,
               permissions := Option.none, modified := Option.none,
               children := Option.none }] } :=
  c2_eager_stream_described_entries
    (resolveConfig { compressLargeDirs := some false }) rfl rfl
    (FSNode.dir "r" Option.none true [FSNode.file "a.txt" Option.none "" true])
    ["r"] 5 ⟨0, 0⟩ ⟨0, 0⟩
    { name := "r", path := ["r"], kind := EntryKind.directory,
      size := Option.none, permissions := Option.none,
      modified := Option.none,
      children := some
        [{ name := "a.txt", path := ["r", "a.txt"], kind := EntryKind.file,
           size := Option.none, permissions := Option.none,
           modified := Option.none, children := Option.none }] }
    ⟨1, 0⟩
    [StreamEvent.start "r",
     StreamEvent.fileEv
       { name := "a.txt", path := ["r", "a.txt"], kind := EntryKind.file,
         size := Option.none, permissions := Option.none,
         modified := Option.none, children := Option.none } "" true,
     StreamEvent.endEv 5 1]
    ⟨1, 0⟩ (by rfl) (by rfl)
